import Mathlib

/-!
Verification of the pftabled repository: a shallow embedding of the
address codec (`PFTableAddr`), the table state manager (`PfTable`), the
kernel fetch loop, and the line command protocol (`process_command` /
`CommandHandler`), with theorems checking the specification's claims.

Python strings are modelled as `List Char`, Python `bytes`/C byte arrays as
`List Nat` (one entry per byte), the Python `set` of addresses as a
`Finset`, and Python exceptions as `Except PyErr`.
-/

deriving instance DecidableEq for Except

namespace Pftabled

/-- Python exceptions that the modelled code can raise. -/
inductive PyErr where
  | valueError
  | keyError
  | osError
  | indexError
  deriving DecidableEq

/-- The `AF_INET` socket constant: 2 on OpenBSD, the platform the daemon targets
(`/dev/pf`, `pledge`). -/
def AF_INET : Nat := 2

/-- The `AF_INET6` socket constant: 24 on OpenBSD. -/
def AF_INET6 : Nat := 24

/-- Constant `PFRKE_PLAIN` from `net/pfvar.h`. -/
def PFRKE_PLAIN : Nat := 0

/-- Shallow embedding of the C `struct pfr_addr` (the kernel wire record):
the 16-byte address union is kept as a list of byte values, the interface
name as its 16 raw bytes, and the scalar fields as `Nat`. -/
structure PfrAddr where
  pfra_addr : List Nat
  pfra_ifname : List Nat
  pfra_states : Nat
  pfra_weight : Nat
  pfra_af : Nat
  pfra_net : Nat
  pfra_not : Nat
  pfra_fback : Nat
  pfra_type : Nat
  deriving DecidableEq

/-- A zero-initialized `pfr_addr`: ctypes zero-initializes freshly created
structures, so `pfr_addr()` has every byte zero. -/
def PfrAddr.zero : PfrAddr :=
  ⟨List.replicate 16 0, List.replicate 16 0, 0, 0, 0, 0, 0, 0, 0⟩

/-- An `ipaddress` network value: IP version (4 or 6), network address as an
integer, and prefix length. -/
structure IpNetwork where
  version : Nat
  addr : Nat
  prefixlen : Nat
  deriving DecidableEq

/-- Address width in bits for an IP version (32 for v4, 128 for v6);
`max_prefixlen` in `ipaddress`. -/
def addrWidth (version : Nat) : Nat := if version = 4 then 32 else 128

/-- Here `IpNetwork.maxPrefixlen` mirrors `ipaddress`'s `max_prefixlen`. -/
def IpNetwork.maxPrefixlen (n : IpNetwork) : Nat := addrWidth n.version

/-- The values an `ipaddress.ip_network` object can actually take: version 4
or 6, prefix within the address width, address within range and with no
host bits set below the prefix. -/
def IpNetwork.Valid (n : IpNetwork) : Prop :=
  (n.version = 4 ∨ n.version = 6) ∧ n.prefixlen ≤ addrWidth n.version ∧
    n.addr < 2 ^ addrWidth n.version ∧
    n.addr % 2 ^ (addrWidth n.version - n.prefixlen) = 0

instance (n : IpNetwork) : Decidable n.Valid := by
  unfold IpNetwork.Valid; infer_instance

/-- A `PFTableAddr`: an address in a PF table, an `ipaddress` network plus the
negation flag. -/
structure PFTableAddr where
  address : IpNetwork
  negate : Bool
  deriving DecidableEq

/-- A `PFTableAddr` whose network is a value `ipaddress` can produce. -/
def PFTableAddr.Valid (x : PFTableAddr) : Prop := x.address.Valid

instance (x : PFTableAddr) : Decidable x.Valid := by
  unfold PFTableAddr.Valid; infer_instance

/-- Big-endian rendering of `n` into `len` bytes; models the `packed` bytes
of an `ipaddress` address object. -/
def packBE : Nat → Nat → List Nat
  | 0, _ => []
  | l + 1, n => packBE l (n / 256) ++ [n % 256]

/-- Big-endian byte decoding; models `ipaddress.ip_address` reading a
`bytes` value of length 4 or 16. -/
def unpackBE (bs : List Nat) : Nat := bs.foldl (fun acc b => acc * 256 + b) 0

theorem packBE_length (l n : Nat) : (packBE l n).length = l := by
  induction l generalizing n with
  | zero => rfl
  | succ l ih => simp [packBE, ih]

theorem unpackBE_append_one (bs : List Nat) (b : Nat) :
    unpackBE (bs ++ [b]) = unpackBE bs * 256 + b := by
  simp [unpackBE, List.foldl_append]

theorem unpackBE_packBE (l n : Nat) : unpackBE (packBE l n) = n % 256 ^ l := by
  induction l generalizing n with
  | zero => simp [packBE, unpackBE, Nat.mod_one]
  | succ l ih =>
    rw [packBE, unpackBE_append_one, ih]
    have h : (256 : Nat) ^ (l + 1) = 256 * 256 ^ l := by ring
    rw [h, Nat.mod_mul]
    ring

/-- Models strict `ipaddress.ip_network((address, prefixlen))` as used by
`_from_struct`: rejects a prefix longer than the address width and an
address with host bits set (both `ValueError` in Python). -/
def ip_network_strict (version addr prefixlen : Nat) : Except PyErr IpNetwork :=
  if prefixlen ≤ addrWidth version ∧ addr % 2 ^ (addrWidth version - prefixlen) = 0
  then .ok ⟨version, addr, prefixlen⟩
  else .error .valueError

/-- Decoding, `PFTableAddr._from_struct`: the dict lookup
`{AF_INET6: 16, AF_INET: 4}[a.pfra_af]` selects 16 or 4 address bytes and
raises `KeyError` for any other family; the network is built strictly from
the selected bytes and `pfra_net`, and `negate` from `pfra_not`. -/
def PFTableAddr.from_struct (a : PfrAddr) : Except PyErr PFTableAddr :=
  if a.pfra_af = AF_INET6 then
    (ip_network_strict 6 (unpackBE (a.pfra_addr.take 16)) a.pfra_net).map
      fun net => ⟨net, a.pfra_not != 0⟩
  else if a.pfra_af = AF_INET then
    (ip_network_strict 4 (unpackBE (a.pfra_addr.take 4)) a.pfra_net).map
      fun net => ⟨net, a.pfra_not != 0⟩
  else .error .keyError

/-- Encoding, `PFTableAddr.to_struct`: encode into a zero-initialized `pfr_addr`,
copying the packed network address into the front of the union. -/
def PFTableAddr.to_struct (x : PFTableAddr) : PfrAddr :=
  let packed := packBE (if x.address.version = 4 then 4 else 16) x.address.addr
  { PfrAddr.zero with
    pfra_addr := packed ++ List.replicate (16 - packed.length) 0
    pfra_af := if x.address.version = 4 then AF_INET else AF_INET6
    pfra_net := x.address.prefixlen
    pfra_not := if x.negate then 1 else 0
    pfra_fback := 0
    pfra_type := PFRKE_PLAIN
    pfra_ifname := List.replicate 16 0 }

theorem pow256_eq (l : Nat) : (256 : Nat) ^ l = 2 ^ (8 * l) := by
  rw [show (256 : Nat) = 2 ^ 8 by norm_num, ← pow_mul]

theorem unpack_packBE_of_lt (l n : Nat) (h : n < 2 ^ (8 * l)) :
    unpackBE (packBE l n) = n := by
  rw [unpackBE_packBE, pow256_eq]
  exact Nat.mod_eq_of_lt h

theorem take_packBE_append (l n : Nat) (rest : List Nat) :
    (packBE l n ++ rest).take l = packBE l n := by
  have h := List.take_left (packBE l n) rest
  rwa [packBE_length] at h

/-- C2: decoding the wire record produced by encoding a valid table address
yields the address back (same network, same negate flag), and the encoded
record has the unused statistics and interface-name fields zeroed. -/
theorem decode_encode_roundtrip (x : PFTableAddr) (hx : x.Valid) :
    PFTableAddr.from_struct x.to_struct = .ok x ∧
      x.to_struct.pfra_states = 0 ∧ x.to_struct.pfra_weight = 0 ∧
      x.to_struct.pfra_ifname = List.replicate 16 0 := by
  obtain ⟨⟨v, a, p⟩, neg⟩ := x
  obtain ⟨hver, hple, hlt, hmod⟩ := hx
  refine ⟨?_, rfl, rfl, rfl⟩
  rcases hver with h4 | h6
  · subst h4
    have h1 : p ≤ 32 := by simpa [addrWidth] using hple
    have h2 : a % 2 ^ (32 - p) = 0 := by simpa [addrWidth] using hmod
    have h3 : a < 2 ^ (8 * 4) := by simpa [addrWidth] using hlt
    cases neg <;>
      simp [PFTableAddr.from_struct, PFTableAddr.to_struct, PfrAddr.zero, AF_INET, AF_INET6,
        take_packBE_append, unpack_packBE_of_lt 4 a h3, ip_network_strict, addrWidth, h1, h2,
        Except.map]
  · subst h6
    have h1 : p ≤ 128 := by simpa [addrWidth] using hple
    have h2 : a % 2 ^ (128 - p) = 0 := by simpa [addrWidth] using hmod
    have h3 : a < 2 ^ (8 * 16) := by simpa [addrWidth] using hlt
    cases neg <;>
      simp [PFTableAddr.from_struct, PFTableAddr.to_struct, PfrAddr.zero, AF_INET, AF_INET6,
        take_packBE_append, unpack_packBE_of_lt 16 a h3, ip_network_strict, addrWidth, h1, h2,
        Except.map]

/-- C2 witness: the round trip evaluated at `! 2001:db8::/32`. -/
theorem decode_encode_roundtrip_witness :
    PFTableAddr.Valid ⟨⟨6, 0x20010db8 * 2 ^ 96, 32⟩, true⟩ ∧
      PFTableAddr.from_struct (PFTableAddr.to_struct ⟨⟨6, 0x20010db8 * 2 ^ 96, 32⟩, true⟩) =
        .ok ⟨⟨6, 0x20010db8 * 2 ^ 96, 32⟩, true⟩ :=
  ⟨by decide, (decode_encode_roundtrip ⟨⟨6, 0x20010db8 * 2 ^ 96, 32⟩, true⟩ (by decide)).1⟩

/-- C7 counterexample: a record whose `pfra_af` is the number 4 (the claim's
"IPv4 family value (4)") is rejected with a `KeyError`, instead of being
decoded as an IPv4 record as the claim states. -/
theorem from_struct_af4_rejected :
    PFTableAddr.from_struct { PfrAddr.zero with pfra_af := 4 } = .error .keyError := by
  decide

/-- C7 amended: decode fails with a `KeyError` exactly when `pfra_af` is
neither `AF_INET` (2) nor `AF_INET6` (24); for `AF_INET` it selects the
first 4 address bytes and for `AF_INET6` all 16, building the network from
the selected bytes and `pfra_net`, with `negate` from the `pfra_not` flag. -/
theorem from_struct_families (a : PfrAddr) :
    (a.pfra_af ≠ AF_INET → a.pfra_af ≠ AF_INET6 →
      PFTableAddr.from_struct a = .error .keyError) ∧
    (a.pfra_af = AF_INET → ∀ x, PFTableAddr.from_struct a = .ok x →
      x.address.version = 4 ∧ x.address.addr = unpackBE (a.pfra_addr.take 4) ∧
      x.address.prefixlen = a.pfra_net ∧ x.negate = (a.pfra_not != 0)) ∧
    (a.pfra_af = AF_INET6 → ∀ x, PFTableAddr.from_struct a = .ok x →
      x.address.version = 6 ∧ x.address.addr = unpackBE (a.pfra_addr.take 16) ∧
      x.address.prefixlen = a.pfra_net ∧ x.negate = (a.pfra_not != 0)) := by
  refine ⟨fun h2 h24 => ?_, fun h2 x hx => ?_, fun h24 x hx => ?_⟩
  · simp [PFTableAddr.from_struct, h2, h24]
  · have h24 : a.pfra_af ≠ AF_INET6 := by rw [h2]; decide
    rw [PFTableAddr.from_struct, if_neg h24, if_pos h2] at hx
    rcases h : ip_network_strict 4 (unpackBE (a.pfra_addr.take 4)) a.pfra_net with e | net
    · rw [h] at hx; simp [Except.map] at hx
    · rw [h] at hx
      simp only [Except.map] at hx
      cases hx
      rw [ip_network_strict] at h
      split at h
      · cases h; exact ⟨rfl, rfl, rfl, rfl⟩
      · cases h
  · rw [PFTableAddr.from_struct, if_pos h24] at hx
    rcases h : ip_network_strict 6 (unpackBE (a.pfra_addr.take 16)) a.pfra_net with e | net
    · rw [h] at hx; simp [Except.map] at hx
    · rw [h] at hx
      simp only [Except.map] at hx
      cases hx
      rw [ip_network_strict] at h
      split at h
      · cases h; exact ⟨rfl, rfl, rfl, rfl⟩
      · cases h

/-- C7 witness: the family dispatch evaluated on a concrete `AF_INET6`
record holding `2001:db8::` with prefix 32 and the negate flag set. -/
theorem from_struct_families_witness :
    (⟨packBE 16 (0x20010db8 * 2 ^ 96), List.replicate 16 0, 0, 0, 24, 32, 1, 0, 0⟩ :
        PfrAddr).pfra_af = AF_INET6 ∧
      PFTableAddr.from_struct
          ⟨packBE 16 (0x20010db8 * 2 ^ 96), List.replicate 16 0, 0, 0, 24, 32, 1, 0, 0⟩ =
        .ok ⟨⟨6, 0x20010db8 * 2 ^ 96, 32⟩, true⟩ ∧
      (⟨⟨6, 0x20010db8 * 2 ^ 96, 32⟩, true⟩ : PFTableAddr).address.version = 6 :=
  ⟨by decide, by decide,
    ((from_struct_families
          ⟨packBE 16 (0x20010db8 * 2 ^ 96), List.replicate 16 0, 0, 0, 24, 32, 1, 0, 0⟩).2.2
        (by decide) ⟨⟨6, 0x20010db8 * 2 ^ 96, 32⟩, true⟩ (by decide)).1⟩

/-! ## Table state manager (`PfTable`)

`_set_addresses` performs one `DIOCRSETADDRS` ioctl with the whole desired
set; it is modelled by an abstract function `repl` from the desired set to
either the kernel-reported `(ndel, nadd, nchange)` counts or a raised
`OSError`.  The in-memory `set` is a `Finset PFTableAddr`. -/

/-- The replace-all kernel call, abstracted: the Python `_set_addresses`
either returns `(pfrio_ndel, pfrio_nadd, pfrio_nchange)` or raises. -/
abbrev ReplCall := Finset PFTableAddr → Except PyErr (Nat × Nat × Nat)

/-- Outcome of one `PfTable` mutation: the in-memory set afterwards, how
many times `_set_addresses` was invoked, and the returned count or the
exception that escaped the method. -/
structure MutOut where
  state : Finset PFTableAddr
  kernelCalls : Nat
  result : Except PyErr Nat
  deriving DecidableEq

/-- Method `PfTable.add` after the parse: under the lock, if the address is absent
it is inserted into the set and then `_set_addresses` is called; the set
mutation precedes the kernel call, so a kernel failure leaves the element
inserted and propagates the exception.  If present, return 0 without a
kernel call. -/
def PfTable.addAddr (repl : ReplCall) (s : Finset PFTableAddr) (x : PFTableAddr) : MutOut :=
  if x ∈ s then ⟨s, 0, .ok 0⟩
  else
    match repl (insert x s) with
    | .ok (_ndel, nadd, _nch) => ⟨insert x s, 1, .ok nadd⟩
    | .error e => ⟨insert x s, 1, .error e⟩

/-- Method `PfTable.remove` after the parse: if present, erase from the set and
then call `_set_addresses` (no rollback on failure); if absent, return 0
without a kernel call. -/
def PfTable.removeAddr (repl : ReplCall) (s : Finset PFTableAddr) (x : PFTableAddr) : MutOut :=
  if x ∈ s then
    match repl (s.erase x) with
    | .ok (ndel, _nadd, _nch) => ⟨s.erase x, 1, .ok ndel⟩
    | .error e => ⟨s.erase x, 1, .error e⟩
  else ⟨s, 0, .ok 0⟩

/-- Method `PfTable.clear`: empty the set, then call `_set_addresses` with the
empty buffer; the kernel-reported deleted count is returned. -/
def PfTable.clear (repl : ReplCall) (_s : Finset PFTableAddr) : MutOut :=
  match repl ∅ with
  | .ok (ndel, _nadd, _nch) => ⟨∅, 1, .ok ndel⟩
  | .error e => ⟨∅, 1, .error e⟩

/-- A kernel whose replace call always fails (ioctl raising `OSError`). -/
def failRepl : ReplCall := fun _ => .error .osError

/-- A kernel whose replace call always succeeds, reporting zero counts. -/
def okRepl : ReplCall := fun _ => .ok (0, 0, 0)

/-- Address `192.0.2.1/32`, not negated. -/
def addr1 : PFTableAddr := ⟨⟨4, 0xC0000201, 32⟩, false⟩

/-- C1 counterexample: with a kernel whose replace call fails, `add` on an
empty table raises but leaves the address in the in-memory set — the set
is *not* equal to its value before the call, so the claimed rollback does
not happen. -/
theorem add_rollback_counterexample :
    (PfTable.addAddr failRepl ∅ addr1).result = .error .osError ∧
      (PfTable.addAddr failRepl ∅ addr1).state ≠ ∅ := by
  constructor
  · rfl
  · intro h
    have : addr1 ∈ (PfTable.addAddr failRepl ∅ addr1).state := by
      simp [PfTable.addAddr, failRepl]
    rw [h] at this
    exact absurd this (Finset.not_mem_empty _)

/-- C1 amended: on kernel-call failure the exception propagates and the
in-memory set keeps the already-applied mutation (the element stays
inserted / removed, the set stays cleared) — there is no rollback. -/
theorem mutation_failure_keeps_mutation (repl : ReplCall) (s : Finset PFTableAddr)
    (x : PFTableAddr) (e : PyErr) :
    (x ∉ s → repl (insert x s) = .error e →
      PfTable.addAddr repl s x = ⟨insert x s, 1, .error e⟩) ∧
    (x ∈ s → repl (s.erase x) = .error e →
      PfTable.removeAddr repl s x = ⟨s.erase x, 1, .error e⟩) ∧
    (repl ∅ = .error e → PfTable.clear repl s = ⟨∅, 1, .error e⟩) := by
  refine ⟨fun hx hr => ?_, fun hx hr => ?_, fun hr => ?_⟩
  · simp [PfTable.addAddr, hx, hr]
  · simp [PfTable.removeAddr, hx, hr]
  · simp [PfTable.clear, hr]

/-- C1 amended witness: the three failure cases evaluated with the failing
kernel at `192.0.2.1` on concrete sets. -/
theorem mutation_failure_keeps_mutation_witness :
    PfTable.addAddr failRepl ∅ addr1 = ⟨insert addr1 ∅, 1, .error .osError⟩ ∧
      PfTable.removeAddr failRepl {addr1} addr1 =
        ⟨Finset.erase {addr1} addr1, 1, .error .osError⟩ ∧
      PfTable.clear failRepl {addr1} = ⟨∅, 1, .error .osError⟩ :=
  ⟨(mutation_failure_keeps_mutation failRepl ∅ addr1 .osError).1
      (Finset.not_mem_empty _) rfl,
    (mutation_failure_keeps_mutation failRepl {addr1} addr1 .osError).2.1
      (Finset.mem_singleton_self _) rfl,
    (mutation_failure_keeps_mutation failRepl {addr1} addr1 .osError).2.2 rfl⟩

/-- C5: `add` on a present address returns 0 with no kernel call; `remove`
on an absent address returns 0 with no kernel call; and when the kernel
reports a positive added count, `add` twice in sequence yields that
positive count and then 0 with no second kernel call. -/
theorem add_remove_idempotent (repl : ReplCall) (s : Finset PFTableAddr) (x : PFTableAddr) :
    (x ∈ s → PfTable.addAddr repl s x = ⟨s, 0, .ok 0⟩) ∧
    (x ∉ s → PfTable.removeAddr repl s x = ⟨s, 0, .ok 0⟩) ∧
    (∀ d n c, x ∉ s → repl (insert x s) = .ok (d, n, c) → 0 < n →
      (PfTable.addAddr repl s x).result = .ok n ∧
      PfTable.addAddr repl (PfTable.addAddr repl s x).state x =
        ⟨insert x s, 0, .ok 0⟩) := by
  refine ⟨fun hx => ?_, fun hx => ?_, fun d n c hx hr _hn => ⟨?_, ?_⟩⟩
  · simp [PfTable.addAddr, hx]
  · simp [PfTable.removeAddr, hx]
  · simp [PfTable.addAddr, hx, hr]
  · simp [PfTable.addAddr, hx, hr, Finset.mem_insert_self]

/-- C5 witness: with a kernel reporting one added entry, adding
`192.0.2.1` to the empty table returns 1, and adding it again returns 0
with no kernel call. -/
theorem add_remove_idempotent_witness :
    (PfTable.addAddr (fun _ => .ok (0, 1, 0)) ∅ addr1).result = .ok 1 ∧
      PfTable.addAddr (fun _ => .ok (0, 1, 0))
          (PfTable.addAddr (fun _ => .ok (0, 1, 0)) ∅ addr1).state addr1 =
        ⟨insert addr1 ∅, 0, .ok 0⟩ ∧
      PfTable.removeAddr (fun _ => .ok (0, 1, 0)) ∅ addr1 = ⟨∅, 0, .ok 0⟩ := by
  have h := add_remove_idempotent (fun _ => .ok (0, 1, 0)) ∅ addr1
  have h2 := h.2.2 0 1 0 (Finset.not_mem_empty _) rfl (by decide)
  exact ⟨h2.1, h2.2, h.2.1 (Finset.not_mem_empty _)⟩

/-! ## Kernel fetch (`_get_addresses`) -/

/-- One `DIOCRGETADDRS` ioctl against an abstract kernel: from the supplied
buffer capacity to the reported entry count (`pfrio_size` after the call)
and the buffer contents. -/
abbrev FetchCall := Nat → Nat × List PfrAddr

/-- The retry loop of `_get_addresses`: issue the fetch with the current
capacity; stop when the reported count fits, otherwise reissue with the
reported count as the new capacity.  `fuel` bounds the iterations — the
Python loop is unbounded and a kernel whose report keeps growing would
never terminate. -/
def getAddrLoop (kernel : FetchCall) : Nat → Nat → Option (Nat × List PfrAddr)
  | _, 0 => none
  | bufSize, fuel + 1 =>
    let reported := (kernel bufSize).1
    let buffer := (kernel bufSize).2
    if reported ≤ bufSize then some (reported, buffer)
    else getAddrLoop kernel reported fuel

/-- Method `PfTable._get_addresses`: run the loop from the default capacity of 20
entries, then decode `buffer[:pfrio_size]` record by record. -/
def PfTable.getAddresses (kernel : FetchCall) (fuel : Nat) :
    Option (Except PyErr (List PFTableAddr)) :=
  (getAddrLoop kernel 20 fuel).map fun r => (r.2.take r.1).mapM PFTableAddr.from_struct

/-- A stable kernel holding `recs`: every call reports the true count and
fills `min capacity count` records into the zero-initialized buffer. -/
def stableKernel (recs : List PfrAddr) : FetchCall := fun bufSize =>
  (recs.length, recs.take bufSize ++ List.replicate (bufSize - recs.length) PfrAddr.zero)

/-- C6: against a stable kernel the fetch starting at capacity 20
terminates within two iterations and decodes exactly the kernel's records,
and in general a report larger than the capacity makes the loop reissue
with capacity equal to the reported count. -/
theorem fetch_all_buffer_growth (recs : List PfrAddr) (fuel : Nat) (hfuel : 2 ≤ fuel) :
    PfTable.getAddresses (stableKernel recs) fuel =
      some (recs.mapM PFTableAddr.from_struct) ∧
    (∀ (kernel : FetchCall) (bufSize f : Nat), bufSize < (kernel bufSize).1 →
      getAddrLoop kernel bufSize (f + 1) = getAddrLoop kernel (kernel bufSize).1 f) := by
  constructor
  · obtain ⟨f, rfl⟩ : ∃ f, fuel = f + 2 := ⟨fuel - 2, by omega⟩
    rw [PfTable.getAddresses]
    by_cases h : recs.length ≤ 20
    · rw [getAddrLoop]
      simp only [stableKernel]
      rw [if_pos h]
      have hrecs : recs.take 20 = recs := List.take_of_length_le h
      simp [hrecs, List.take_left']
    · rw [getAddrLoop]
      simp only [stableKernel]
      rw [if_neg h]
      rw [getAddrLoop]
      simp only [stableKernel]
      rw [if_pos le_rfl]
      have hrecs : recs.take recs.length = recs := List.take_of_length_le le_rfl
      simp [hrecs, List.take_left']
  · intro kernel bufSize f h
    simp [getAddrLoop, Nat.not_le.mpr h]

/-- C6 witness: a kernel with 50 records against the 20-capacity first
request terminates with fuel 2 and returns all 50, uncorrupted. -/
theorem fetch_all_buffer_growth_witness :
    PfTable.getAddresses (stableKernel (List.replicate 50 addr1.to_struct)) 2 =
      some (.ok (List.replicate 50 addr1)) ∧
      20 < (List.replicate 50 addr1.to_struct).length := by
  constructor
  · rw [(fetch_all_buffer_growth (List.replicate 50 addr1.to_struct) 2 (by decide)).1]
    decide
  · decide

/-! ## Sequences of table operations -/

/-- One client-visible mutation of the table. -/
inductive TableOp where
  | add (x : PFTableAddr)
  | remove (x : PFTableAddr)
  | clear
  deriving DecidableEq

/-- The in-memory set after one mutation with a succeeding kernel. -/
def applyOp (s : Finset PFTableAddr) : TableOp → Finset PFTableAddr
  | .add x => (PfTable.addAddr okRepl s x).state
  | .remove x => (PfTable.removeAddr okRepl s x).state
  | .clear => (PfTable.clear okRepl s).state

/-- The in-memory set after a whole sequence of successful mutations. -/
def applyOps (s : Finset PFTableAddr) (ops : List TableOp) : Finset PFTableAddr :=
  ops.foldl applyOp s

/-- Whether an operation decides later membership of `x`: `some true` when
it adds `x`, `some false` when it removes `x` or clears everything. -/
def TableOp.decides (x : PFTableAddr) : TableOp → Option Bool
  | .add y => if y = x then some true else none
  | .remove y => if y = x then some false else none
  | .clear => some false

/-- The decision of the last operation in `ops` that decides membership of
`x`, if any. -/
def lastDecision (x : PFTableAddr) : List TableOp → Option Bool
  | [] => none
  | op :: rest =>
    match lastDecision x rest with
    | some b => some b
    | none => TableOp.decides x op

/-- The spec's description of membership after a sequence: the most recent
operation deciding `x` added it, or no operation decides `x` and `x` was
an initial member. -/
def specMember (init : Finset PFTableAddr) (ops : List TableOp) (x : PFTableAddr) : Bool :=
  match lastDecision x ops with
  | some b => b
  | none => decide (x ∈ init)

theorem addAddr_state (repl : ReplCall) (s : Finset PFTableAddr) (x : PFTableAddr) :
    (PfTable.addAddr repl s x).state = insert x s := by
  rw [PfTable.addAddr]
  split
  · exact (Finset.insert_eq_self.mpr ‹_›).symm
  · cases h : repl (insert x s) with
    | error e => simp [h]
    | ok v => obtain ⟨d, n, c⟩ := v; simp [h]

theorem removeAddr_state (repl : ReplCall) (s : Finset PFTableAddr) (x : PFTableAddr) :
    (PfTable.removeAddr repl s x).state = s.erase x := by
  rw [PfTable.removeAddr]
  split
  · cases h : repl (s.erase x) with
    | error e => simp [h]
    | ok v => obtain ⟨d, n, c⟩ := v; simp [h]
  · exact (Finset.erase_eq_of_not_mem ‹_›).symm

theorem clear_state (repl : ReplCall) (s : Finset PFTableAddr) :
    (PfTable.clear repl s).state = ∅ := by
  rw [PfTable.clear]
  cases h : repl ∅ with
  | error e => simp
  | ok v => obtain ⟨d, n, c⟩ := v; simp

theorem mem_applyOp (init : Finset PFTableAddr) (op : TableOp) (x : PFTableAddr) :
    x ∈ applyOp init op ↔
      (match TableOp.decides x op with
        | some b => b = true
        | none => x ∈ init) := by
  cases op with
  | add y =>
    rw [applyOp, addAddr_state, TableOp.decides]
    by_cases h : y = x
    · simp [h]
    · have h' : x ≠ y := fun hxy => h hxy.symm
      simp [h, Finset.mem_insert, h']
  | remove y =>
    rw [applyOp, removeAddr_state, TableOp.decides]
    by_cases h : y = x
    · simp [h]
    · have h' : x ≠ y := fun hxy => h hxy.symm
      simp [h, Finset.mem_erase, h']
  | clear =>
    rw [applyOp, clear_state, TableOp.decides]
    simp

theorem mem_applyOps (init : Finset PFTableAddr) (ops : List TableOp) (x : PFTableAddr) :
    x ∈ applyOps init ops ↔ specMember init ops x = true := by
  induction ops generalizing init with
  | nil => simp [applyOps, specMember, lastDecision]
  | cons op rest ih =>
    have hstep : applyOps init (op :: rest) = applyOps (applyOp init op) rest := rfl
    rw [hstep, ih]
    rw [specMember, specMember, lastDecision]
    cases hlast : lastDecision x rest with
    | some b => simp
    | none =>
      simp only []
      have hop := mem_applyOp init op x
      cases hdec : TableOp.decides x op with
      | some b =>
        simp only [hdec] at hop
        simp [hdec, hop]
      | none =>
        simp only [hdec] at hop
        simp [hdec, hop]

/-! ## Equality and hashing of table addresses -/

/-- Python `PFTableAddr.__eq__`: equality over the pair (network, negate). -/
def PFTableAddr.pyEq (a b : PFTableAddr) : Bool :=
  a.address == b.address && a.negate == b.negate

/-- The integer value of the network's netmask (high `prefixlen` bits
set). -/
def IpNetwork.netmaskInt (n : IpNetwork) : Nat :=
  2 ^ addrWidth n.version - 2 ^ (addrWidth n.version - n.prefixlen)

/-- Python `PFTableAddr.__hash__` is `hash(self.address)`: Python hashes a
network value as the hash of `int(network_address) ^ int(netmask)`, a
function of the network alone; the outer integer hash is modelled as the
identity. -/
def PFTableAddr.pyHash (x : PFTableAddr) : Nat :=
  x.address.addr ^^^ x.address.netmaskInt

/-- C9: equality of table addresses is componentwise on (network, negate),
so two values with the same network but different negate flags are never
equal (they are distinct table members), while they always hash alike
because the hash reads only the network. -/
theorem eq_over_pair_hash_over_network (net : IpNetwork) :
    PFTableAddr.pyEq ⟨net, true⟩ ⟨net, false⟩ = false ∧
      PFTableAddr.pyHash ⟨net, true⟩ = PFTableAddr.pyHash ⟨net, false⟩ ∧
      (∀ a b : PFTableAddr,
        PFTableAddr.pyEq a b = true ↔ a.address = b.address ∧ a.negate = b.negate) ∧
      (∀ a b : PFTableAddr, PFTableAddr.pyEq a b = true ↔ a = b) := by
  refine ⟨by simp [PFTableAddr.pyEq], rfl, fun a b => ?_, fun a b => ?_⟩
  · simp [PFTableAddr.pyEq]
  · obtain ⟨na, ga⟩ := a
    obtain ⟨nb, gb⟩ := b
    simp [PFTableAddr.pyEq, PFTableAddr.mk.injEq]

/-! ## Text codec: characters and digit strings

Python strings are `List Char`.  The `ipaddress` module's textual grammar
is modelled for the CIDR core used by this program: dotted-quad IPv4,
hex-grouped IPv6 with `::` compression, and an integer prefix; the
module's extra IPv4 netmask/hostmask notations, IPv4-embedded IPv6 forms
and zone indices are outside the modelled grammar. -/

/-- Python `str.strip` whitespace (the ASCII cases). -/
def isWS (c : Char) : Bool :=
  c = ' ' || c = '\t' || c = '\n' || c = '\r' || c = '\x0b' || c = '\x0c'

/-- Python `str.strip()`. -/
def pyStrip (s : List Char) : List Char :=
  ((s.dropWhile isWS).reverse.dropWhile isWS).reverse

def isDigit (c : Char) : Bool := '0' ≤ c && c ≤ '9'

def isHexDigit (c : Char) : Bool :=
  isDigit c || ('a' ≤ c && c ≤ 'f') || ('A' ≤ c && c ≤ 'F')

def charVal (c : Char) : Nat := c.toNat - 48

def hexVal (c : Char) : Nat :=
  if isDigit c then c.toNat - 48
  else if 'a' ≤ c && c ≤ 'f' then c.toNat - 87
  else c.toNat - 55

def digitChar (d : Nat) : Char :=
  match d with
  | 0 => '0' | 1 => '1' | 2 => '2' | 3 => '3' | 4 => '4'
  | 5 => '5' | 6 => '6' | 7 => '7' | 8 => '8' | _ => '9'

def hexDigitChar (d : Nat) : Char :=
  match d with
  | 0 => '0' | 1 => '1' | 2 => '2' | 3 => '3' | 4 => '4'
  | 5 => '5' | 6 => '6' | 7 => '7' | 8 => '8' | 9 => '9'
  | 10 => 'a' | 11 => 'b' | 12 => 'c' | 13 => 'd' | 14 => 'e' | _ => 'f'

/-- Decimal rendering of a natural number (Python `str(n)`). -/
def natToStr (n : Nat) : List Char :=
  if n < 10 then [digitChar n]
  else natToStr (n / 10) ++ [digitChar (n % 10)]
decreasing_by exact Nat.div_lt_self (by omega) (by omega)

/-- Lowercase hex rendering without leading zeros (Python `'%x' % n`). -/
def natToHex (n : Nat) : List Char :=
  if n < 16 then [hexDigitChar n]
  else natToHex (n / 16) ++ [hexDigitChar (n % 16)]
decreasing_by exact Nat.div_lt_self (by omega) (by omega)

/-- The value of a decimal digit string (Python `int(s)`). -/
def decValue (s : List Char) : Nat := s.foldl (fun acc c => acc * 10 + charVal c) 0

/-- The value of a hex digit string (Python `int(s, 16)`). -/
def hexValue (s : List Char) : Nat := s.foldl (fun acc c => acc * 16 + hexVal c) 0

theorem charVal_digitChar (d : Nat) (h : d < 10) : charVal (digitChar d) = d := by
  interval_cases d <;> rfl

theorem hexVal_hexDigitChar (d : Nat) (h : d < 16) : hexVal (hexDigitChar d) = d := by
  interval_cases d <;> rfl

theorem isDigit_digitChar (d : Nat) : isDigit (digitChar d) = true := by
  rcases d with _|_|_|_|_|_|_|_|_|d
  case succ.succ.succ.succ.succ.succ.succ.succ.succ =>
    rw [show digitChar (d + 1 + 1 + 1 + 1 + 1 + 1 + 1 + 1 + 1) = '9' from rfl]
    decide
  all_goals decide

theorem isHexDigit_hexDigitChar (d : Nat) : isHexDigit (hexDigitChar d) = true := by
  rcases d with _|_|_|_|_|_|_|_|_|_|_|_|_|_|_|d
  case succ.succ.succ.succ.succ.succ.succ.succ.succ.succ.succ.succ.succ.succ.succ =>
    rw [show hexDigitChar (d + 1 + 1 + 1 + 1 + 1 + 1 + 1 + 1 + 1 + 1 + 1 + 1 + 1 + 1 + 1) =
        'f' from rfl]
    decide
  all_goals decide

theorem decValue_append_one (s : List Char) (c : Char) :
    decValue (s ++ [c]) = decValue s * 10 + charVal c := by
  simp [decValue, List.foldl_append]

theorem hexValue_append_one (s : List Char) (c : Char) :
    hexValue (s ++ [c]) = hexValue s * 16 + hexVal c := by
  simp [hexValue, List.foldl_append]

theorem decValue_natToStr (n : Nat) : decValue (natToStr n) = n := by
  induction n using Nat.strong_induction_on with
  | _ n ih =>
    rw [natToStr]
    split
    · next h => simp [decValue, charVal_digitChar n h]
    · next h =>
      rw [decValue_append_one, ih (n / 10) (Nat.div_lt_self (by omega) (by omega)),
        charVal_digitChar (n % 10) (Nat.mod_lt _ (by omega))]
      omega

theorem hexValue_natToHex (n : Nat) : hexValue (natToHex n) = n := by
  induction n using Nat.strong_induction_on with
  | _ n ih =>
    rw [natToHex]
    split
    · next h => simp [hexValue, hexVal_hexDigitChar n h]
    · next h =>
      rw [hexValue_append_one, ih (n / 16) (Nat.div_lt_self (by omega) (by omega)),
        hexVal_hexDigitChar (n % 16) (Nat.mod_lt _ (by omega))]
      omega

theorem natToStr_ne_nil (n : Nat) : natToStr n ≠ [] := by
  rw [natToStr]
  split <;> simp

theorem natToHex_ne_nil (n : Nat) : natToHex n ≠ [] := by
  rw [natToHex]
  split <;> simp

theorem natToStr_all_digits (n : Nat) : (natToStr n).all isDigit = true := by
  induction n using Nat.strong_induction_on with
  | _ n ih =>
    rw [natToStr]
    split
    · simp [isDigit_digitChar]
    · simp [List.all_append, ih (n / 10) (Nat.div_lt_self (by omega) (by omega)),
        isDigit_digitChar]

theorem natToHex_all_hex (n : Nat) : (natToHex n).all isHexDigit = true := by
  induction n using Nat.strong_induction_on with
  | _ n ih =>
    rw [natToHex]
    split
    · simp [isHexDigit_hexDigitChar]
    · simp [List.all_append, ih (n / 16) (Nat.div_lt_self (by omega) (by omega)),
        isHexDigit_hexDigitChar]

theorem natToStr_length_le (k : Nat) : ∀ n, 0 < k → n < 10 ^ k → (natToStr n).length ≤ k := by
  induction k with
  | zero => omega
  | succ k ih =>
    intro n _ hn
    rw [natToStr]
    split
    · simp
    · next h =>
      have hk' : 0 < k := by
        rcases Nat.eq_zero_or_pos k with h0 | h0
        · subst h0; norm_num at hn; omega
        · exact h0
      have hdiv : n / 10 < 10 ^ k := by
        rw [Nat.div_lt_iff_lt_mul (by norm_num)]
        calc n < 10 ^ (k + 1) := hn
          _ = 10 ^ k * 10 := by ring
      have := ih (n / 10) hk' hdiv
      simp only [List.length_append, List.length_cons, List.length_nil]
      omega

theorem natToHex_length_le (k : Nat) : ∀ n, 0 < k → n < 16 ^ k → (natToHex n).length ≤ k := by
  induction k with
  | zero => omega
  | succ k ih =>
    intro n _ hn
    rw [natToHex]
    split
    · simp
    · next h =>
      have hk' : 0 < k := by
        rcases Nat.eq_zero_or_pos k with h0 | h0
        · subst h0; norm_num at hn; omega
        · exact h0
      have hdiv : n / 16 < 16 ^ k := by
        rw [Nat.div_lt_iff_lt_mul (by norm_num)]
        calc n < 16 ^ (k + 1) := hn
          _ = 16 ^ k * 16 := by ring
      have := ih (n / 16) hk' hdiv
      simp only [List.length_append, List.length_cons, List.length_nil]
      omega

theorem natToStr_head_ne_zero (n : Nat) (h : 0 < n) :
    ∃ c t, natToStr n = c :: t ∧ c ≠ '0' := by
  induction n using Nat.strong_induction_on with
  | _ n ih =>
    rw [natToStr]
    split
    · next hlt =>
      refine ⟨digitChar n, [], rfl, ?_⟩
      interval_cases n <;> decide
    · next hge =>
      obtain ⟨c, t, hct, hc⟩ :=
        ih (n / 10) (Nat.div_lt_self (by omega) (by omega)) (by omega)
      exact ⟨c, t ++ [digitChar (n % 10)], by rw [hct]; rfl, hc⟩

theorem isDigit_isHexDigit (c : Char) (h : isDigit c = true) : isHexDigit c = true := by
  simp [isHexDigit, h]

/-- A hex digit is none of the structural characters of the textual
grammar, and is not whitespace. -/
theorem hexDigit_not_special (c : Char) (h : isHexDigit c = true) :
    c ≠ ':' ∧ c ≠ '/' ∧ c ≠ '.' ∧ c ≠ '!' ∧ isWS c = false := by
  refine ⟨fun hc => ?_, fun hc => ?_, fun hc => ?_, fun hc => ?_, ?_⟩
  · rw [hc] at h; exact absurd h (by decide)
  · rw [hc] at h; exact absurd h (by decide)
  · rw [hc] at h; exact absurd h (by decide)
  · rw [hc] at h; exact absurd h (by decide)
  · cases hws : isWS c
    · rfl
    · exfalso
      have hc : c = ' ' ∨ c = '\t' ∨ c = '\n' ∨ c = '\r' ∨ c = '\x0b' ∨ c = '\x0c' := by
        simpa [isWS, or_assoc] using hws
      rcases hc with rfl | rfl | rfl | rfl | rfl | rfl <;> exact absurd h (by decide)

theorem digit_not_special (c : Char) (h : isDigit c = true) :
    c ≠ ':' ∧ c ≠ '/' ∧ c ≠ '.' ∧ c ≠ '!' ∧ isWS c = false :=
  hexDigit_not_special c (isDigit_isHexDigit c h)

/-- Python `str.split(sep)` with a one-character separator. -/
def splitOn (sep : Char) : List Char → List (List Char)
  | [] => [[]]
  | c :: rest =>
    if c = sep then [] :: splitOn sep rest
    else
      match splitOn sep rest with
      | [] => [[c]]
      | p :: ps => (c :: p) :: ps

/-- Python `sep.join(parts)` with a one-character separator. -/
def joinSep (sep : Char) : List (List Char) → List Char
  | [] => []
  | [p] => p
  | p :: ps => p ++ sep :: joinSep sep ps

theorem splitOn_no_sep (sep : Char) (s : List Char) (h : sep ∉ s) :
    splitOn sep s = [s] := by
  induction s with
  | nil => rfl
  | cons c rest ih =>
    rw [splitOn]
    have hc : ¬ c = sep := fun hc => h (hc ▸ List.mem_cons_self c rest)
    rw [if_neg hc, ih (fun hm => h (List.mem_cons_of_mem c hm))]

theorem splitOn_append_sep (sep : Char) (x t : List Char) (h : sep ∉ x) :
    splitOn sep (x ++ sep :: t) = x :: splitOn sep t := by
  induction x with
  | nil => simp [splitOn]
  | cons c x' ih =>
    rw [List.cons_append, splitOn]
    have hc : ¬ c = sep := fun hc => h (hc ▸ List.mem_cons_self c x')
    rw [if_neg hc, ih (fun hm => h (List.mem_cons_of_mem c hm))]

theorem splitOn_joinSep (sep : Char) (parts : List (List Char)) (hne : parts ≠ [])
    (hfree : ∀ p ∈ parts, sep ∉ p) :
    splitOn sep (joinSep sep parts) = parts := by
  induction parts with
  | nil => exact absurd rfl hne
  | cons p ps ih =>
    cases ps with
    | nil => exact splitOn_no_sep sep p (hfree p (by simp))
    | cons q qs =>
      rw [show joinSep sep (p :: q :: qs) = p ++ sep :: joinSep sep (q :: qs) from rfl]
      rw [splitOn_append_sep sep _ _ (hfree p (by simp))]
      rw [ih (by simp) (fun r hr => hfree r (List.mem_cons_of_mem p hr))]

theorem splitOn_joinSep_append (sep : Char) (parts : List (List Char)) (t : List Char)
    (hne : parts ≠ []) (hfree : ∀ p ∈ parts, sep ∉ p) :
    splitOn sep (joinSep sep parts ++ sep :: t) = parts ++ splitOn sep t := by
  induction parts with
  | nil => exact absurd rfl hne
  | cons p ps ih =>
    cases ps with
    | nil =>
      rw [show joinSep sep [p] = p from rfl]
      rw [splitOn_append_sep sep p t (hfree p (by simp))]
      rfl
    | cons q qs =>
      rw [show joinSep sep (p :: q :: qs) = p ++ sep :: joinSep sep (q :: qs) from rfl]
      rw [List.append_assoc, List.cons_append]
      rw [splitOn_append_sep sep p _ (hfree p (by simp))]
      rw [ih (by simp) (fun r hr => hfree r (List.mem_cons_of_mem p hr))]
      rfl

theorem packBE_mem_lt (l n : Nat) : ∀ x ∈ packBE l n, x < 256 := by
  induction l generalizing n with
  | zero => simp [packBE]
  | succ l ih =>
    intro x hx
    rw [packBE] at hx
    rcases List.mem_append.mp hx with h | h
    · exact ih (n / 256) x h
    · simp at h; subst h; exact Nat.mod_lt _ (by omega)

theorem packBE_four (n : Nat) :
    packBE 4 n = [n / 256 / 256 / 256 % 256, n / 256 / 256 % 256, n / 256 % 256, n % 256] := by
  rfl

theorem not_mem_of_all_digits (s : List Char) (hall : s.all isDigit = true) :
    ':' ∉ s ∧ '/' ∉ s ∧ '.' ∉ s := by
  rw [List.all_eq_true] at hall
  refine ⟨fun hm => ?_, fun hm => ?_, fun hm => ?_⟩ <;>
    exact absurd (hall _ hm) (by decide)

theorem not_mem_of_all_hex (s : List Char) (hall : s.all isHexDigit = true) :
    ':' ∉ s ∧ '/' ∉ s := by
  rw [List.all_eq_true] at hall
  refine ⟨fun hm => ?_, fun hm => ?_⟩ <;>
    exact absurd (hall _ hm) (by decide)

/-- Python `IPv4Address._parse_octet`: 1–3 decimal digits, no leading zero unless
the octet is the single digit `0`, value at most 255. -/
def parseOctet (s : List Char) : Option Nat :=
  if s = [] then none
  else if ¬ s.all isDigit then none
  else if 3 < s.length then none
  else if s.head? = some '0' ∧ s.length ≠ 1 then none
  else if decValue s ≤ 255 then some (decValue s) else none

/-- Python `IPv4Address._ip_int_from_string`: exactly four octets joined by dots,
assembled big-endian as by `int.from_bytes`. -/
def parseIPv4 (s : List Char) : Option Nat :=
  match splitOn '.' s with
  | [p1, p2, p3, p4] =>
    match parseOctet p1, parseOctet p2, parseOctet p3, parseOctet p4 with
    | some a, some b, some c, some d => some (unpackBE [a, b, c, d])
    | _, _, _, _ => none
  | _ => none

/-- Python `str(IPv4Address)`: dotted-quad rendering of the four packed bytes. -/
def formatIPv4 (addr : Nat) : List Char :=
  joinSep '.' ((packBE 4 addr).map natToStr)

theorem parseOctet_natToStr (o : Nat) (h : o ≤ 255) : parseOctet (natToStr o) = some o := by
  have hlen : (natToStr o).length ≤ 3 := natToStr_length_le 3 o (by norm_num) (by omega)
  have hz : ¬((natToStr o).head? = some '0' ∧ (natToStr o).length ≠ 1) := by
    rcases Nat.lt_or_ge o 10 with h10 | h10
    · rw [natToStr, if_pos h10]
      simp
    · obtain ⟨c, t, hct, hc⟩ := natToStr_head_ne_zero o (by omega)
      rw [hct]
      simp [hc]
  rw [parseOctet, if_neg (natToStr_ne_nil o), if_neg (by simp [natToStr_all_digits o]),
    if_neg (Nat.not_lt.mpr hlen), if_neg hz, decValue_natToStr, if_pos h]

theorem parseIPv4_formatIPv4 (addr : Nat) (h : addr < 2 ^ 32) :
    parseIPv4 (formatIPv4 addr) = some addr := by
  obtain ⟨b0, b1, b2, b3, hb⟩ : ∃ b0 b1 b2 b3, packBE 4 addr = [b0, b1, b2, b3] :=
    ⟨_, _, _, _, packBE_four addr⟩
  have hlt : ∀ x ∈ packBE 4 addr, x < 256 := packBE_mem_lt 4 addr
  rw [hb] at hlt
  have h0 : b0 ≤ 255 := by have := hlt b0 (by simp); omega
  have h1 : b1 ≤ 255 := by have := hlt b1 (by simp); omega
  have h2 : b2 ≤ 255 := by have := hlt b2 (by simp); omega
  have h3 : b3 ≤ 255 := by have := hlt b3 (by simp); omega
  have hsplit : splitOn '.' (joinSep '.' [natToStr b0, natToStr b1, natToStr b2, natToStr b3]) =
      [natToStr b0, natToStr b1, natToStr b2, natToStr b3] := by
    apply splitOn_joinSep
    · simp
    · intro p hp
      simp only [List.mem_cons, List.not_mem_nil, or_false] at hp
      rcases hp with rfl | rfl | rfl | rfl <;>
        exact (not_mem_of_all_digits _ (natToStr_all_digits _)).2.2
  rw [formatIPv4, hb]
  rw [List.map_cons, List.map_cons, List.map_cons, List.map_cons, List.map_nil]
  rw [parseIPv4, hsplit]
  simp only [parseOctet_natToStr b0 h0, parseOctet_natToStr b1 h1, parseOctet_natToStr b2 h2,
    parseOctet_natToStr b3 h3]
  rw [show unpackBE [b0, b1, b2, b3] = unpackBE (packBE 4 addr) from by rw [hb]]
  rw [unpack_packBE_of_lt 4 addr (by norm_num; exact h)]

/-! ## IPv6 text codec -/

/-- The 16-bit hextets of an IPv6 address, big-endian. -/
def packHextets : Nat → Nat → List Nat
  | 0, _ => []
  | l + 1, n => packHextets l (n / 65536) ++ [n % 65536]

/-- Big-endian assembly of hextets (the shift-or loop of
`_ip_int_from_string`). -/
def unpackHextets (gs : List Nat) : Nat := gs.foldl (fun acc g => acc * 65536 + g) 0

theorem packHextets_length (l n : Nat) : (packHextets l n).length = l := by
  induction l generalizing n with
  | zero => rfl
  | succ l ih => simp [packHextets, ih]

theorem unpackHextets_append_one (gs : List Nat) (g : Nat) :
    unpackHextets (gs ++ [g]) = unpackHextets gs * 65536 + g := by
  simp [unpackHextets, List.foldl_append]

theorem unpackHextets_packHextets (l n : Nat) :
    unpackHextets (packHextets l n) = n % 65536 ^ l := by
  induction l generalizing n with
  | zero => simp [packHextets, unpackHextets, Nat.mod_one]
  | succ l ih =>
    rw [packHextets, unpackHextets_append_one, ih]
    have h : (65536 : Nat) ^ (l + 1) = 65536 * 65536 ^ l := by ring
    rw [h, Nat.mod_mul]
    ring

theorem packHextets_mem_lt (l n : Nat) : ∀ x ∈ packHextets l n, x < 65536 := by
  induction l generalizing n with
  | zero => simp [packHextets]
  | succ l ih =>
    intro x hx
    rw [packHextets] at hx
    rcases List.mem_append.mp hx with h | h
    · exact ih (n / 65536) x h
    · simp at h; subst h; exact Nat.mod_lt _ (by omega)

/-- Length of the leading run of zero groups. -/
def leadZeros : List Nat → Nat
  | [] => 0
  | g :: rest => if g = 0 then leadZeros rest + 1 else 0

theorem leadZeros_le_length (gs : List Nat) : leadZeros gs ≤ gs.length := by
  induction gs with
  | nil => simp [leadZeros]
  | cons g rest ih =>
    rw [leadZeros]
    split
    · simpa using ih
    · simp

theorem take_leadZeros (gs : List Nat) :
    gs.take (leadZeros gs) = List.replicate (leadZeros gs) 0 := by
  induction gs with
  | nil => simp [leadZeros]
  | cons g rest ih =>
    rw [leadZeros]
    split
    · next h => subst h; simp [List.replicate_succ, ih]
    · simp

/-- The zero run Python's `_compress_hextets` selects: scanning start
indices left to right, keep the first strictly-longest run of zero
groups.  Returns (start, length). -/
def bestZeroRun (gs : List Nat) : Nat × Nat :=
  (List.range gs.length).foldl
    (fun best i =>
      let l := leadZeros (gs.drop i)
      if best.2 < l then (i, l) else best)
    (0, 0)

theorem foldl_invariant {α β : Type} (P : β → Prop) (f : β → α → β) (l : List α) (init : β)
    (h0 : P init) (hstep : ∀ b a, a ∈ l → P b → P (f b a)) : P (l.foldl f init) := by
  induction l generalizing init with
  | nil => exact h0
  | cons x xs ih =>
    exact ih (f init x) (hstep init x (by simp) h0)
      (fun b a ha hb => hstep b a (by simp [ha]) hb)

theorem bestZeroRun_spec (gs : List Nat) :
    bestZeroRun gs = (0, 0) ∨
      ((bestZeroRun gs).1 + (bestZeroRun gs).2 ≤ gs.length ∧ 0 < (bestZeroRun gs).2 ∧
        (gs.drop (bestZeroRun gs).1).take (bestZeroRun gs).2 =
          List.replicate (bestZeroRun gs).2 0) := by
  rw [bestZeroRun]
  apply foldl_invariant
    (P := fun b => b = (0, 0) ∨
      (b.1 + b.2 ≤ gs.length ∧ 0 < b.2 ∧
        (gs.drop b.1).take b.2 = List.replicate b.2 0))
  · exact Or.inl rfl
  · intro b i hi _hb
    simp only []
    split
    · next hlt =>
      right
      refine ⟨?_, by omega, take_leadZeros (gs.drop i)⟩
      have h1 : leadZeros (gs.drop i) ≤ (gs.drop i).length := leadZeros_le_length _
      have h2 : i < gs.length := List.mem_range.mp hi
      simp only [List.length_drop] at h1
      omega
    · next hlt => exact _hb

/-- Python `str(IPv6Address)`: the eight hex groups joined by `:`, with the
chosen zero run (when longer than one group) compressed to `::`. -/
def formatIPv6 (addr : Nat) : List Char :=
  let groups := packHextets 8 addr
  let best := bestZeroRun groups
  if 1 < best.2 then
    joinSep ':' ((groups.take best.1).map natToHex) ++ ':' :: ':' ::
      joinSep ':' ((groups.drop (best.1 + best.2)).map natToHex)
  else
    joinSep ':' (groups.map natToHex)

/-- Python `IPv6Address._parse_hextet`: 1–4 hex digits. -/
def parseHextet (s : List Char) : Option Nat :=
  if s = [] then none
  else if ¬ s.all isHexDigit then none
  else if 4 < s.length then none
  else some (hexValue s)

theorem parseHextet_natToHex (g : Nat) (h : g < 65536) : parseHextet (natToHex g) = some g := by
  have hlen : (natToHex g).length ≤ 4 :=
    natToHex_length_le 4 g (by norm_num) (by norm_num; omega)
  rw [parseHextet, if_neg (natToHex_ne_nil g), if_neg (by simp [natToHex_all_hex g]),
    if_neg (Nat.not_lt.mpr hlen), hexValue_natToHex]

/-- Classification of the interior parts (those between the first and last
part) of a `:`-split IPv6 string: no empty part, exactly one empty part
(the `::` position) splitting the interior into `hi`/`lo`, or several
empty parts (malformed). -/
inductive MidSplit where
  | none
  | one (hi lo : List (List Char))
  | many
  deriving DecidableEq

def midSplit (mid : List (List Char)) : MidSplit :=
  let hi := mid.takeWhile (fun p => !p.isEmpty)
  match mid.drop hi.length with
  | [] => .none
  | _ :: lo => if lo.any (fun p => p.isEmpty) then .many else .one hi lo

/-- Python `IPv6Address._ip_int_from_string` after the `:`-split (without the
embedded-IPv4 and zone-index forms): between 3 and 9 parts, at most one
empty interior part marking `::`, an empty first/last part only as part of
a leading/trailing `::`, exactly 8 groups when there is no `::` and at
most 7 otherwise, each group of 1–4 hex digits, assembled big-endian with
the missing groups zero. -/
def parseIPv6parts (parts : List (List Char)) : Option Nat :=
  match parts with
  | [] => none
  | p0 :: rest =>
    match rest.getLast? with
    | Option.none => none
    | some plast =>
      if rest.length + 1 < 3 ∨ 9 < rest.length + 1 then none
      else
        match midSplit rest.dropLast with
        | .none =>
          if p0 = [] ∨ plast = [] ∨ rest.length + 1 ≠ 8 then none
          else ((p0 :: rest).mapM parseHextet).map unpackHextets
        | .one hi lo =>
          match (if p0 = [] then (if hi = [] then some [] else Option.none)
                 else some (p0 :: hi) :
                  Option (List (List Char))),
                (if plast = [] then (if lo = [] then some [] else Option.none)
                 else some (lo ++ [plast]) :
                  Option (List (List Char))) with
          | some hps, some lps =>
            if 8 ≤ hps.length + lps.length then none
            else
              match hps.mapM parseHextet, lps.mapM parseHextet with
              | some hvs, some lvs =>
                some (unpackHextets
                  (hvs ++ List.replicate (8 - hps.length - lps.length) 0 ++ lvs))
              | _, _ => none
          | _, _ => none
        | .many => none

/-- Python `IPv6Address._ip_int_from_string`: split on `:` and process the
parts. -/
def parseIPv6 (s : List Char) : Option Nat :=
  parseIPv6parts (splitOn ':' s)

theorem natToHex_map_ne_nil (gs : List Nat) : ∀ p ∈ gs.map natToHex, p ≠ [] := by
  intro p hp
  obtain ⟨g, _, rfl⟩ := List.mem_map.mp hp
  exact natToHex_ne_nil g

theorem natToHex_map_colon_free (gs : List Nat) : ∀ p ∈ gs.map natToHex, ':' ∉ p := by
  intro p hp
  obtain ⟨g, _, rfl⟩ := List.mem_map.mp hp
  exact (not_mem_of_all_hex _ (natToHex_all_hex g)).1

theorem mapM_parseHextet_map (gs : List Nat) (h : ∀ g ∈ gs, g < 65536) :
    (gs.map natToHex).mapM parseHextet = some gs := by
  induction gs with
  | nil => rfl
  | cons g rest ih =>
    rw [List.map_cons, List.mapM_cons, parseHextet_natToHex g (h g (by simp)),
      ih (fun x hx => h x (by simp [hx]))]
    rfl

theorem takeWhile_all {α : Type} (f : α → Bool) (l : List α) (h : ∀ x ∈ l, f x = true) :
    l.takeWhile f = l := by
  induction l with
  | nil => rfl
  | cons x xs ih =>
    rw [List.takeWhile_cons, if_pos (h x (by simp)), ih (fun y hy => h y (by simp [hy]))]

theorem takeWhile_append_middle {α : Type} (f : α → Bool) (xs ys : List α) (y : α)
    (hxs : ∀ x ∈ xs, f x = true) (hy : f y = false) :
    (xs ++ y :: ys).takeWhile f = xs := by
  induction xs with
  | nil => simp [List.takeWhile_cons, hy]
  | cons x xs' ih =>
    rw [List.cons_append, List.takeWhile_cons, if_pos (hxs x (by simp)),
      ih (fun z hz => hxs z (by simp [hz]))]

theorem midSplit_none (mid : List (List Char)) (h : ∀ p ∈ mid, p ≠ []) :
    midSplit mid = .none := by
  rw [midSplit]
  have htw : mid.takeWhile (fun p => !p.isEmpty) = mid :=
    takeWhile_all _ mid (fun x hx => by simpa using h x hx)
  simp only [htw, List.drop_length]

theorem midSplit_one (hi lo : List (List Char)) (hhi : ∀ p ∈ hi, p ≠ [])
    (hlo : ∀ p ∈ lo, p ≠ []) :
    midSplit (hi ++ [] :: lo) = .one hi lo := by
  rw [midSplit]
  have htw : (hi ++ [] :: lo).takeWhile (fun p => !p.isEmpty) = hi :=
    takeWhile_append_middle _ hi lo [] (fun x hx => by simpa using hhi x hx) rfl
  have hdrop : (hi ++ [] :: lo).drop hi.length = [] :: lo := List.drop_left hi ([] :: lo)
  simp only [htw, hdrop]
  have hany : lo.any (fun p => p.isEmpty) = false := by
    rw [List.any_eq_false]
    intro p hp
    simpa using hlo p hp
  simp [hany]

theorem gs_decomp (gs : List Nat) (s l : Nat) (_hsl : s + l ≤ gs.length)
    (hz : (gs.drop s).take l = List.replicate l 0) :
    gs = gs.take s ++ List.replicate l 0 ++ gs.drop (s + l) := by
  conv_lhs => rw [← List.take_append_drop s gs]
  rw [List.append_assoc]
  congr 1
  conv_lhs => rw [← List.take_append_drop l (gs.drop s)]
  rw [hz, List.drop_drop]

/-- Core of the IPv6 round trip: the parts list produced by splitting a
compressed rendering (`hi`-groups, `::`, `lo`-groups, with an empty
pseudo-part at either end when the run touches it) parses back to the
assembled address. -/
theorem parseIPv6parts_compressed (gs : List Nat) (hgs : gs.length = 8)
    (hlt : ∀ g ∈ gs, g < 65536) (s l : Nat) (hsl : s + l ≤ 8) (h2 : 2 ≤ l)
    (hz : (gs.drop s).take l = List.replicate l 0) :
    parseIPv6parts ((if s = 0 then [[]] else (gs.take s).map natToHex) ++ [[]] ++
        (if s + l = 8 then [[]] else (gs.drop (s + l)).map natToHex)) =
      some (unpackHextets gs) := by
  have hdecomp : gs = gs.take s ++ List.replicate l 0 ++ gs.drop (s + l) :=
    gs_decomp gs s l (by omega) hz
  have htakelen : (gs.take s).length = s := by
    rw [List.length_take]; omega
  have hdroplen : (gs.drop (s + l)).length = 8 - (s + l) := by
    rw [List.length_drop, hgs]
  by_cases hs0 : s = 0
  · subst hs0
    by_cases hsl8 : 0 + l = 8
    · -- the whole address is `::`: all eight groups are zero
      have hl8 : l = 8 := by omega
      subst hl8
      have hd8 : gs.drop (0 + 8) = [] := by
        have h08 : (0 + 8 : Nat) = gs.length := by omega
        rw [h08, List.drop_length]
      have hgs0 : gs = List.replicate 8 0 := by
        conv_lhs => rw [hdecomp]
        rw [hd8]
        simp
      rw [if_pos rfl, if_pos hsl8, hgs0]
      decide
    · -- leading `::` followed by the low groups
      have hlonil : (gs.drop (0 + l)).map natToHex ≠ [] := by
        intro hnil
        have hh := congrArg List.length hnil
        simp only [List.length_map, hdroplen, List.length_nil] at hh
        omega
      obtain ⟨init, plast, hconcat⟩ := (List.eq_nil_or_concat _).resolve_left hlonil
      rw [List.concat_eq_append] at hconcat
      have hplast_ne : plast ≠ [] :=
        natToHex_map_ne_nil _ plast (by rw [hconcat]; simp)
      have hinit_ne : ∀ p ∈ init, p ≠ [] := fun p hp =>
        natToHex_map_ne_nil _ p (by rw [hconcat]; exact List.mem_append_left _ hp)
      have hinitlen : init.length = 7 - l := by
        have hh := congrArg List.length hconcat
        simp only [List.length_map, hdroplen, List.length_append,
          List.length_cons, List.length_nil] at hh
        omega
      have hmid : midSplit ([] :: init) = MidSplit.one [] init := by
        have := midSplit_one [] init (by simp) hinit_ne
        simpa using this
      rw [if_pos rfl, if_neg hsl8, hconcat]
      rw [show ([[]] ++ [[]] ++ (init ++ [plast]) : List (List Char)) =
          [] :: (([] :: init) ++ [plast]) from by simp]
      simp only [parseIPv6parts, List.getLast?_concat, List.dropLast_concat, hmid]
      rw [if_neg (by
        simp only [List.length_append, List.length_cons, List.length_nil]
        omega)]
      simp only [ite_true, if_neg hplast_ne]
      rw [if_neg (by
        simp only [List.length_append, List.length_cons, List.length_nil]
        omega)]
      rw [show (init ++ [plast] : List (List Char)) = (gs.drop (0 + l)).map natToHex
          from hconcat.symm]
      rw [mapM_parseHextet_map _ (fun g hg => hlt g (List.drop_subset _ _ hg))]
      simp only [List.mapM_nil, Option.pure_def]
      have hcount : 8 - List.length ([] : List (List Char)) -
          List.length ((gs.drop (0 + l)).map natToHex) = l := by
        simp only [List.length_nil, List.length_map, hdroplen]
        omega
      rw [hcount]
      conv_rhs => rw [hdecomp]
      simp
  · -- the high groups are nonempty
    have hhiSne : (gs.take s).map natToHex ≠ [] := by
      intro hnil
      have hh := congrArg List.length hnil
      simp only [List.length_map, htakelen, List.length_nil] at hh
      omega
    obtain ⟨h0, hrest, hcons⟩ := List.exists_cons_of_ne_nil hhiSne
    have h0_ne : h0 ≠ [] :=
      natToHex_map_ne_nil _ h0 (by rw [hcons]; simp)
    have hrest_ne : ∀ p ∈ hrest, p ≠ [] := fun p hp =>
      natToHex_map_ne_nil _ p (by rw [hcons]; exact List.mem_cons_of_mem _ hp)
    have hrestlen : hrest.length = s - 1 := by
      have hh := congrArg List.length hcons
      simp only [List.length_map, htakelen, List.length_cons] at hh
      omega
    by_cases hsl8 : s + l = 8
    · -- trailing `::`
      have hmid : midSplit (hrest ++ [[]]) = MidSplit.one hrest [] :=
        midSplit_one hrest [] hrest_ne (by simp)
      rw [if_neg hs0, if_pos hsl8, hcons]
      rw [show (h0 :: hrest) ++ [[]] ++ [[]] =
          h0 :: ((hrest ++ [[]]) ++ [[]]) from by simp]
      simp only [parseIPv6parts, List.getLast?_concat, List.dropLast_concat, hmid]
      rw [if_neg (by
        simp only [List.length_append, List.length_cons, List.length_nil, hrestlen]
        omega)]
      rw [if_neg h0_ne]
      simp only [ite_true]
      rw [if_neg (by
        simp only [List.length_append, List.length_cons, List.length_nil, hrestlen]
        omega)]
      rw [show h0 :: hrest = (gs.take s).map natToHex from hcons.symm]
      rw [mapM_parseHextet_map _ (fun g hg => hlt g (List.take_subset _ _ hg))]
      simp only [List.mapM_nil, Option.pure_def]
      have hcount : 8 - List.length ((gs.take s).map natToHex) -
          List.length ([] : List (List Char)) = l := by
        simp only [List.length_nil, List.length_map, htakelen]
        omega
      rw [hcount]
      conv_rhs => rw [hdecomp]
      have hdropnil : gs.drop (s + l) = [] := by
        rw [hsl8, ← hgs, List.drop_length]
      rw [hdropnil]
    · -- `::` in the middle
      have hlonil : (gs.drop (s + l)).map natToHex ≠ [] := by
        intro hnil
        have hh := congrArg List.length hnil
        simp only [List.length_map, hdroplen, List.length_nil] at hh
        omega
      obtain ⟨init, plast, hconcat⟩ := (List.eq_nil_or_concat _).resolve_left hlonil
      rw [List.concat_eq_append] at hconcat
      have hplast_ne : plast ≠ [] :=
        natToHex_map_ne_nil _ plast (by rw [hconcat]; simp)
      have hinit_ne : ∀ p ∈ init, p ≠ [] := fun p hp =>
        natToHex_map_ne_nil _ p (by rw [hconcat]; exact List.mem_append_left _ hp)
      have hinitlen : init.length = 7 - (s + l) := by
        have hh := congrArg List.length hconcat
        simp only [List.length_map, hdroplen, List.length_append,
          List.length_cons, List.length_nil] at hh
        omega
      have hmid : midSplit (hrest ++ [] :: init) = MidSplit.one hrest init :=
        midSplit_one hrest init hrest_ne hinit_ne
      rw [if_neg hs0, if_neg hsl8, hcons, hconcat]
      rw [show (h0 :: hrest) ++ [[]] ++ (init ++ [plast]) =
          h0 :: ((hrest ++ [] :: init) ++ [plast]) from by simp]
      simp only [parseIPv6parts, List.getLast?_concat, List.dropLast_concat, hmid]
      rw [if_neg (by
        simp only [List.length_append, List.length_cons, List.length_nil,
          hrestlen, hinitlen]
        omega)]
      simp only [if_neg h0_ne, if_neg hplast_ne]
      rw [if_neg (by
        simp only [List.length_append, List.length_cons, List.length_nil,
          hrestlen, hinitlen]
        omega)]
      rw [show h0 :: hrest = (gs.take s).map natToHex from hcons.symm]
      rw [show (init ++ [plast] : List (List Char)) = (gs.drop (s + l)).map natToHex
          from hconcat.symm]
      rw [mapM_parseHextet_map _ (fun g hg => hlt g (List.take_subset _ _ hg))]
      rw [mapM_parseHextet_map _ (fun g hg => hlt g (List.drop_subset _ _ hg))]
      have hcount : 8 - List.length ((gs.take s).map natToHex) -
          List.length ((gs.drop (s + l)).map natToHex) = l := by
        simp only [List.length_map, htakelen, hdroplen]
        omega
      rw [hcount]
      conv_rhs => rw [hdecomp]

theorem formatIPv6_eq (addr : Nat) :
    formatIPv6 addr =
      if 1 < (bestZeroRun (packHextets 8 addr)).2 then
        joinSep ':' (((packHextets 8 addr).take (bestZeroRun (packHextets 8 addr)).1).map
            natToHex) ++ ':' :: ':' ::
          joinSep ':' (((packHextets 8 addr).drop
            ((bestZeroRun (packHextets 8 addr)).1 + (bestZeroRun (packHextets 8 addr)).2)).map
              natToHex)
      else joinSep ':' ((packHextets 8 addr).map natToHex) := rfl

theorem splitOn_cons_sep (sep : Char) (rest : List Char) :
    splitOn sep (sep :: rest) = [] :: splitOn sep rest := by
  rw [splitOn, if_pos rfl]

/-- Parsing the uncompressed eight-group rendering. -/
theorem parseIPv6parts_full (gs : List Nat) (hgs : gs.length = 8)
    (hlt : ∀ g ∈ gs, g < 65536) :
    parseIPv6parts (gs.map natToHex) = some (unpackHextets gs) := by
  have hne : ∀ p ∈ gs.map natToHex, p ≠ [] := natToHex_map_ne_nil gs
  have hmaplen : (gs.map natToHex).length = 8 := by rw [List.length_map, hgs]
  obtain ⟨h0, hrest, hcons⟩ := List.exists_cons_of_ne_nil
    (show gs.map natToHex ≠ [] by intro hh; rw [hh] at hmaplen; simp at hmaplen)
  have hrestlen : hrest.length = 7 := by
    have hh := congrArg List.length hcons
    rw [hmaplen] at hh
    simp at hh
    omega
  obtain ⟨init, plast, hconcat⟩ := (List.eq_nil_or_concat hrest).resolve_left
    (by intro hh; rw [hh] at hrestlen; simp at hrestlen)
  rw [List.concat_eq_append] at hconcat
  have h0_ne : h0 ≠ [] := hne h0 (by rw [hcons]; simp)
  have hplast_ne : plast ≠ [] := hne plast (by rw [hcons, hconcat]; simp)
  have hinit_ne : ∀ p ∈ init, p ≠ [] := fun p hp =>
    hne p (by rw [hcons, hconcat]; simp [hp])
  have hinitlen : init.length = 6 := by
    have hh := congrArg List.length hconcat
    rw [hrestlen] at hh
    simp at hh
    omega
  have hmid : midSplit init = MidSplit.none := midSplit_none init hinit_ne
  rw [hcons, hconcat]
  simp only [parseIPv6parts, List.getLast?_concat, List.dropLast_concat, hmid]
  rw [if_neg (by
    simp only [List.length_append, List.length_cons, List.length_nil, hinitlen]
    omega)]
  rw [if_neg (by
    simp only [List.length_append, List.length_cons, List.length_nil, hinitlen]
    push_neg
    exact ⟨h0_ne, hplast_ne, by omega⟩)]
  rw [show h0 :: (init ++ [plast]) = gs.map natToHex from by rw [hcons, hconcat]]
  rw [mapM_parseHextet_map gs hlt]
  rfl

/-- The `:`-split of the compressed rendering produces the shape consumed
by `parseIPv6parts_compressed`. -/
theorem splitOn_formatIPv6_compressed (gs : List Nat) (hgs : gs.length = 8)
    (s l : Nat) (hsl : s + l ≤ 8) :
    splitOn ':' (joinSep ':' ((gs.take s).map natToHex) ++ ':' :: ':' ::
        joinSep ':' ((gs.drop (s + l)).map natToHex)) =
      (if s = 0 then [[]] else (gs.take s).map natToHex) ++ [[]] ++
        (if s + l = 8 then [[]] else (gs.drop (s + l)).map natToHex) := by
  have hhifree : ∀ p ∈ (gs.take s).map natToHex, ':' ∉ p := natToHex_map_colon_free _
  have hlofree : ∀ p ∈ (gs.drop (s + l)).map natToHex, ':' ∉ p := natToHex_map_colon_free _
  by_cases hs0 : s = 0
  · subst hs0
    rw [if_pos rfl]
    rw [show (List.take 0 gs).map natToHex = [] from by simp]
    rw [show joinSep ':' [] = [] from rfl, List.nil_append]
    rw [splitOn_cons_sep, splitOn_cons_sep]
    by_cases hsl8 : 0 + l = 8
    · rw [if_pos hsl8]
      rw [show gs.drop (0 + l) = [] from by rw [hsl8, ← hgs, List.drop_length]]
      rfl
    · rw [if_neg hsl8]
      rw [splitOn_joinSep ':' _ (by
          intro hh
          have := congrArg List.length hh
          simp [List.length_drop, hgs] at this
          omega) hlofree]
      rfl
  · rw [if_neg hs0]
    have hhine : (gs.take s).map natToHex ≠ [] := by
      intro hh
      have := congrArg List.length hh
      simp [List.length_take, hgs] at this
      omega
    by_cases hsl8 : s + l = 8
    · rw [if_pos hsl8]
      rw [show gs.drop (s + l) = [] from by rw [hsl8, ← hgs, List.drop_length]]
      rw [show (List.map natToHex []) = ([] : List (List Char)) from rfl]
      rw [show joinSep ':' [] = [] from rfl]
      rw [splitOn_joinSep_append ':' _ _ hhine hhifree, splitOn_cons_sep]
      simp [splitOn]
    · rw [if_neg hsl8]
      rw [splitOn_joinSep_append ':' _ _ hhine hhifree]
      rw [splitOn_cons_sep]
      rw [splitOn_joinSep ':' _ (by
          intro hh
          have := congrArg List.length hh
          simp [List.length_drop, hgs] at this
          omega) hlofree]
      simp

/-- The IPv6 textual round trip. -/
theorem parseIPv6_formatIPv6 (addr : Nat) (h : addr < 2 ^ 128) :
    parseIPv6 (formatIPv6 addr) = some addr := by
  have hglen : (packHextets 8 addr).length = 8 := packHextets_length 8 addr
  have hglt : ∀ g ∈ packHextets 8 addr, g < 65536 := packHextets_mem_lt 8 addr
  have hunpack : unpackHextets (packHextets 8 addr) = addr := by
    rw [unpackHextets_packHextets]
    apply Nat.mod_eq_of_lt
    calc addr < 2 ^ 128 := h
      _ = 65536 ^ 8 := by norm_num
  rw [parseIPv6, formatIPv6_eq]
  by_cases hbest : 1 < (bestZeroRun (packHextets 8 addr)).2
  · rw [if_pos hbest]
    have hspec := (bestZeroRun_spec (packHextets 8 addr)).resolve_left
      (by intro hh; rw [hh] at hbest; simp at hbest)
    obtain ⟨hsl, _hlpos, hz⟩ := hspec
    rw [hglen] at hsl
    rw [splitOn_formatIPv6_compressed _ hglen _ _ hsl]
    rw [parseIPv6parts_compressed _ hglen hglt _ _ hsl (by omega) hz, hunpack]
  · rw [if_neg hbest]
    rw [splitOn_joinSep ':' _ (by
        intro hh
        have := congrArg List.length hh
        simp [hglen] at this) (natToHex_map_colon_free _)]
    rw [parseIPv6parts_full _ hglen hglt, hunpack]

/-! ## Network text: `ip_network(text, strict=False)`, `_from_string`,
`to_string` -/

/-- Python `_prefix_from_prefix_string`: a nonempty pure-digit string (leading
zeros permitted) whose value is at most the address width. -/
def parsePrefixLen (width : Nat) (s : List Char) : Option Nat :=
  if s = [] then none
  else if ¬ s.all isDigit then none
  else if decValue s ≤ width then some (decValue s) else none

/-- Clear the host bits below the prefix, as the `strict=False` network
constructor does (`int & netmask`). -/
def maskAddr (width addr prefixlen : Nat) : Nat :=
  addr / 2 ^ (width - prefixlen) * 2 ^ (width - prefixlen)

/-- An `ipaddress` network class constructor on text with `strict=False`:
split on `/` (at most one), parse the address part with the class's
address parser, parse the optional prefix (defaulting to the full width),
and clear the host bits.  The IPv4 dotted netmask/hostmask prefix
notations are outside the modelled grammar. -/
def parseNet (version : Nat) (parseIP : List Char → Option Nat) (s : List Char) :
    Option IpNetwork :=
  match splitOn '/' s with
  | [a] =>
    match parseIP a with
    | some ip =>
      some ⟨version, maskAddr (addrWidth version) ip (addrWidth version), addrWidth version⟩
    | none => none
  | [a, p] =>
    match parseIP a, parsePrefixLen (addrWidth version) p with
    | some ip, some pl => some ⟨version, maskAddr (addrWidth version) ip pl, pl⟩
    | _, _ => none
  | _ => none

/-- Python `ipaddress.ip_network(s, strict=False)`: try the IPv4 network class,
fall back to the IPv6 one; `None` models the `ValueError` when both
fail. -/
def ip_network_text (s : List Char) : Option IpNetwork :=
  match parseNet 4 parseIPv4 s with
  | some n => some n
  | none => parseNet 6 parseIPv6 s

/-- Python `str.startswith("!")`. -/
def startsWithBang : List Char → Bool
  | [] => false
  | c :: _ => c = '!'

/-- Parsing, `PFTableAddr._from_string`: strip the text, parse the network from it
with leading `!`s and the whitespace after them removed (`strict=False`),
and set `negate` iff the stripped text starts with `!`; raises
`ValueError` (from `ip_network`) on unparseable text. -/
def PFTableAddr.from_string (s : List Char) : Except PyErr PFTableAddr :=
  match ip_network_text (((pyStrip s).dropWhile (fun c => c = '!')).dropWhile isWS) with
  | some net => .ok ⟨net, startsWithBang (pyStrip s)⟩
  | none => .error .valueError

/-- Rendering, `PFTableAddr.to_string`: the network address text, then `/prefix` when
the prefix is not the address family's full width, then `"! "` prepended
when negated. -/
def PFTableAddr.to_string (x : PFTableAddr) : List Char :=
  let base := if x.address.version = 4 then formatIPv4 x.address.addr
              else formatIPv6 x.address.addr
  let withPrefix :=
    if x.address.prefixlen ≠ x.address.maxPrefixlen
    then base ++ '/' :: natToStr x.address.prefixlen else base
  if x.negate then '!' :: ' ' :: withPrefix else withPrefix

theorem mem_joinSep {sep : Char} {parts : List (List Char)} {c : Char}
    (h : c ∈ joinSep sep parts) : c = sep ∨ ∃ p ∈ parts, c ∈ p := by
  induction parts with
  | nil => simp [joinSep] at h
  | cons p ps ih =>
    cases ps with
    | nil => exact Or.inr ⟨p, by simp, h⟩
    | cons q qs =>
      rw [show joinSep sep (p :: q :: qs) = p ++ sep :: joinSep sep (q :: qs) from rfl] at h
      rcases List.mem_append.mp h with h | h
      · exact Or.inr ⟨p, by simp, h⟩
      · rcases List.mem_cons.mp h with rfl | h
        · exact Or.inl rfl
        · rcases ih h with h | ⟨r, hr, hc⟩
          · exact Or.inl h
          · exact Or.inr ⟨r, by simp [hr], hc⟩

theorem formatIPv4_chars (addr : Nat) :
    ∀ c ∈ formatIPv4 addr, isDigit c = true ∨ c = '.' := by
  intro c hc
  rcases mem_joinSep hc with rfl | ⟨p, hp, hcp⟩
  · exact Or.inr rfl
  · obtain ⟨n, _, rfl⟩ := List.mem_map.mp hp
    left
    exact List.all_eq_true.mp (natToStr_all_digits n) c hcp

theorem formatIPv6_chars (addr : Nat) :
    ∀ c ∈ formatIPv6 addr, isHexDigit c = true ∨ c = ':' := by
  intro c hc
  rw [formatIPv6_eq] at hc
  have hofpart : ∀ (gs : List Nat), c ∈ joinSep ':' (gs.map natToHex) →
      isHexDigit c = true ∨ c = ':' := by
    intro gs hmem
    rcases mem_joinSep hmem with rfl | ⟨p, hp, hcp⟩
    · exact Or.inr rfl
    · obtain ⟨n, _, rfl⟩ := List.mem_map.mp hp
      exact Or.inl (List.all_eq_true.mp (natToHex_all_hex n) c hcp)
  split at hc
  · rcases List.mem_append.mp hc with h | h
    · exact hofpart _ h
    · rcases List.mem_cons.mp h with rfl | h
      · exact Or.inr rfl
      · rcases List.mem_cons.mp h with rfl | h
        · exact Or.inr rfl
        · exact hofpart _ h
  · exact hofpart _ hc

theorem joinSep_cons_ne_nil (sep : Char) (p : List Char) (ps : List (List Char))
    (hp : p ≠ []) : joinSep sep (p :: ps) ≠ [] := by
  cases ps with
  | nil => exact hp
  | cons q qs => simp [joinSep]

theorem formatIPv4_ne_nil (addr : Nat) : formatIPv4 addr ≠ [] := by
  rw [formatIPv4, packBE_four]
  exact joinSep_cons_ne_nil _ _ _ (natToStr_ne_nil _)

theorem formatIPv6_ne_nil (addr : Nat) : formatIPv6 addr ≠ [] := by
  rw [formatIPv6_eq]
  split
  · simp
  · have h8 : (packHextets 8 addr).map natToHex ≠ [] := by
      intro hh
      have := congrArg List.length hh
      simp [packHextets_length] at this
    obtain ⟨h0, hrest, hcons⟩ := List.exists_cons_of_ne_nil h8
    rw [hcons]
    exact joinSep_cons_ne_nil _ _ _
      (natToHex_map_ne_nil _ h0 (by rw [hcons]; simp))

theorem to_string_eq (x : PFTableAddr) :
    PFTableAddr.to_string x =
      (if x.negate then ['!', ' '] else []) ++
        ((if x.address.version = 4 then formatIPv4 x.address.addr
          else formatIPv6 x.address.addr) ++
         (if x.address.prefixlen ≠ x.address.maxPrefixlen
          then '/' :: natToStr x.address.prefixlen else [])) := by
  rw [PFTableAddr.to_string]
  cases hneg : x.negate <;>
    by_cases hpl : x.address.prefixlen = x.address.maxPrefixlen <;>
    simp [hpl]

theorem dropWhile_eq_self_of_head (p : Char → Bool) (s : List Char)
    (h : ∀ c, s.head? = some c → p c = false) : s.dropWhile p = s := by
  cases s with
  | nil => rfl
  | cons c t => rw [List.dropWhile_cons, if_neg (by simp [h c rfl])]

theorem pyStrip_eq_self (s : List Char)
    (hhead : ∀ c, s.head? = some c → isWS c = false)
    (hlast : ∀ c, s.getLast? = some c → isWS c = false) : pyStrip s = s := by
  rw [pyStrip, dropWhile_eq_self_of_head _ _ hhead,
    dropWhile_eq_self_of_head _ _ (fun c hc => hlast c (by rwa [List.head?_reverse] at hc)),
    List.reverse_reverse]

theorem maskAddr_eq_self (width addr p : Nat) (h : addr % 2 ^ (width - p) = 0) :
    maskAddr width addr p = addr :=
  Nat.div_mul_cancel (Nat.dvd_of_mod_eq_zero h)

theorem parsePrefixLen_natToStr (w p : Nat) (h : p ≤ w) :
    parsePrefixLen w (natToStr p) = some p := by
  rw [parsePrefixLen, if_neg (natToStr_ne_nil p), if_neg (by simp [natToStr_all_digits p]),
    decValue_natToStr, if_pos h]

theorem slash_not_mem_formatIPv4 (addr : Nat) : '/' ∉ formatIPv4 addr := by
  intro hm
  rcases formatIPv4_chars addr '/' hm with h | h
  · exact absurd h (by decide)
  · exact absurd h (by decide)

theorem slash_not_mem_formatIPv6 (addr : Nat) : '/' ∉ formatIPv6 addr := by
  intro hm
  rcases formatIPv6_chars addr '/' hm with h | h
  · exact absurd h (by decide)
  · exact absurd h (by decide)

theorem dot_not_mem_formatIPv6 (addr : Nat) : '.' ∉ formatIPv6 addr := by
  intro hm
  rcases formatIPv6_chars addr '.' hm with h | h
  · exact absurd h (by decide)
  · exact absurd h (by decide)

theorem parseNet4_roundtrip_slash (addr p : Nat) (haddr : addr < 2 ^ 32) (hp : p ≤ 32)
    (hmask : addr % 2 ^ (32 - p) = 0) :
    parseNet 4 parseIPv4 (formatIPv4 addr ++ '/' :: natToStr p) = some ⟨4, addr, p⟩ := by
  have hw : addrWidth 4 = 32 := rfl
  have hsplit : splitOn '/' (formatIPv4 addr ++ '/' :: natToStr p) =
      [formatIPv4 addr, natToStr p] := by
    rw [splitOn_append_sep '/' _ _ (slash_not_mem_formatIPv4 addr),
      splitOn_no_sep '/' _ (not_mem_of_all_digits _ (natToStr_all_digits p)).2.1]
  simp only [parseNet, hsplit, parseIPv4_formatIPv4 addr haddr, hw,
    parsePrefixLen_natToStr 32 p hp, maskAddr_eq_self 32 addr p hmask]

theorem parseNet4_roundtrip_noslash (addr : Nat) (haddr : addr < 2 ^ 32) :
    parseNet 4 parseIPv4 (formatIPv4 addr) = some ⟨4, addr, 32⟩ := by
  have hw : addrWidth 4 = 32 := rfl
  have hsplit : splitOn '/' (formatIPv4 addr) = [formatIPv4 addr] :=
    splitOn_no_sep '/' _ (slash_not_mem_formatIPv4 addr)
  simp only [parseNet, hsplit, parseIPv4_formatIPv4 addr haddr, hw,
    maskAddr_eq_self 32 addr 32 (Nat.mod_one addr)]

theorem parseNet6_roundtrip_slash (addr p : Nat) (haddr : addr < 2 ^ 128) (hp : p ≤ 128)
    (hmask : addr % 2 ^ (128 - p) = 0) :
    parseNet 6 parseIPv6 (formatIPv6 addr ++ '/' :: natToStr p) = some ⟨6, addr, p⟩ := by
  have hw : addrWidth 6 = 128 := rfl
  have hsplit : splitOn '/' (formatIPv6 addr ++ '/' :: natToStr p) =
      [formatIPv6 addr, natToStr p] := by
    rw [splitOn_append_sep '/' _ _ (slash_not_mem_formatIPv6 addr),
      splitOn_no_sep '/' _ (not_mem_of_all_digits _ (natToStr_all_digits p)).2.1]
  simp only [parseNet, hsplit, parseIPv6_formatIPv6 addr haddr, hw,
    parsePrefixLen_natToStr 128 p hp, maskAddr_eq_self 128 addr p hmask]

theorem parseNet6_roundtrip_noslash (addr : Nat) (haddr : addr < 2 ^ 128) :
    parseNet 6 parseIPv6 (formatIPv6 addr) = some ⟨6, addr, 128⟩ := by
  have hw : addrWidth 6 = 128 := rfl
  have hsplit : splitOn '/' (formatIPv6 addr) = [formatIPv6 addr] :=
    splitOn_no_sep '/' _ (slash_not_mem_formatIPv6 addr)
  simp only [parseNet, hsplit, parseIPv6_formatIPv6 addr haddr, hw,
    maskAddr_eq_self 128 addr 128 (Nat.mod_one addr)]

theorem parseIPv4_formatIPv6_fails (addr : Nat) : parseIPv4 (formatIPv6 addr) = none := by
  have hsplit : splitOn '.' (formatIPv6 addr) = [formatIPv6 addr] :=
    splitOn_no_sep '.' _ (dot_not_mem_formatIPv6 addr)
  simp only [parseIPv4, hsplit]

theorem parseNet4_formatIPv6_fails_slash (addr p : Nat) :
    parseNet 4 parseIPv4 (formatIPv6 addr ++ '/' :: natToStr p) = none := by
  have hsplit : splitOn '/' (formatIPv6 addr ++ '/' :: natToStr p) =
      [formatIPv6 addr, natToStr p] := by
    rw [splitOn_append_sep '/' _ _ (slash_not_mem_formatIPv6 addr),
      splitOn_no_sep '/' _ (not_mem_of_all_digits _ (natToStr_all_digits p)).2.1]
  simp only [parseNet, hsplit, parseIPv4_formatIPv6_fails addr]

theorem parseNet4_formatIPv6_fails_noslash (addr : Nat) :
    parseNet 4 parseIPv4 (formatIPv6 addr) = none := by
  have hsplit : splitOn '/' (formatIPv6 addr) = [formatIPv6 addr] :=
    splitOn_no_sep '/' _ (slash_not_mem_formatIPv6 addr)
  simp only [parseNet, hsplit, parseIPv4_formatIPv6_fails addr]

/-- The `strict=False` text constructor inverts the canonical network
rendering. -/
theorem ip_network_text_roundtrip (n : IpNetwork) (hn : n.Valid) :
    ip_network_text ((if n.version = 4 then formatIPv4 n.addr else formatIPv6 n.addr) ++
        (if n.prefixlen ≠ addrWidth n.version then '/' :: natToStr n.prefixlen else [])) =
      some n := by
  obtain ⟨v, a, p⟩ := n
  obtain ⟨hver, hple, hlt, hmod⟩ := hn
  rcases hver with h4 | h6
  · subst h4
    have hple' : p ≤ 32 := by simpa [addrWidth] using hple
    have hlt' : a < 2 ^ 32 := by simpa [addrWidth] using hlt
    have hmod' : a % 2 ^ (32 - p) = 0 := by simpa [addrWidth] using hmod
    rw [if_pos (show (⟨4, a, p⟩ : IpNetwork).version = 4 from rfl),
      show addrWidth (⟨4, a, p⟩ : IpNetwork).version = 32 from rfl]
    by_cases hp : p = 32
    · subst hp
      rw [if_neg (by simp), List.append_nil]
      simp only [ip_network_text, parseNet4_roundtrip_noslash a hlt']
    · rw [if_pos hp]
      simp only [ip_network_text, parseNet4_roundtrip_slash a p hlt' hple' hmod']
  · subst h6
    have hple' : p ≤ 128 := by simpa [addrWidth] using hple
    have hlt' : a < 2 ^ 128 := by simpa [addrWidth] using hlt
    have hmod' : a % 2 ^ (128 - p) = 0 := by simpa [addrWidth] using hmod
    rw [if_neg (show ¬ (⟨6, a, p⟩ : IpNetwork).version = 4 from by intro hh; simp at hh),
      show addrWidth (⟨6, a, p⟩ : IpNetwork).version = 128 from rfl]
    by_cases hp : p = 128
    · subst hp
      rw [if_neg (by simp), List.append_nil]
      simp only [ip_network_text, parseNet4_formatIPv6_fails_noslash a,
        parseNet6_roundtrip_noslash a hlt']
    · rw [if_pos hp]
      simp only [ip_network_text, parseNet4_formatIPv6_fails_slash a p,
        parseNet6_roundtrip_slash a p hlt' hple' hmod']

theorem netPart_tame (net : IpNetwork) :
    ∀ c ∈ ((if net.version = 4 then formatIPv4 net.addr else formatIPv6 net.addr) ++
        (if net.prefixlen ≠ net.maxPrefixlen
         then '/' :: natToStr net.prefixlen else [])),
      isWS c = false ∧ c ≠ '!' := by
  intro c hc
  rcases List.mem_append.mp hc with h | h
  · split at h
    · rcases formatIPv4_chars _ c h with hd | rfl
      · exact ⟨(digit_not_special c hd).2.2.2.2, (digit_not_special c hd).2.2.2.1⟩
      · exact ⟨by decide, by decide⟩
    · rcases formatIPv6_chars _ c h with hd | rfl
      · exact ⟨(hexDigit_not_special c hd).2.2.2.2, (hexDigit_not_special c hd).2.2.2.1⟩
      · exact ⟨by decide, by decide⟩
  · split at h
    · rcases List.mem_cons.mp h with rfl | h
      · exact ⟨by decide, by decide⟩
      · have hd := List.all_eq_true.mp (natToStr_all_digits _) c h
        exact ⟨(digit_not_special c hd).2.2.2.2, (digit_not_special c hd).2.2.2.1⟩
    · simp at h

theorem netPart_ne_nil (net : IpNetwork) :
    ((if net.version = 4 then formatIPv4 net.addr else formatIPv6 net.addr) ++
      (if net.prefixlen ≠ net.maxPrefixlen
       then '/' :: natToStr net.prefixlen else [])) ≠ [] := by
  intro hh
  have hbase := (List.append_eq_nil.mp hh).1
  revert hbase
  split
  · exact formatIPv4_ne_nil _
  · exact formatIPv6_ne_nil _

/-- Parsing the rendered text of a valid table address returns the
address unchanged. -/
theorem from_string_to_string (x : PFTableAddr) (hx : x.Valid) :
    PFTableAddr.from_string (PFTableAddr.to_string x) = Except.ok x := by
  obtain ⟨net, neg⟩ := x
  have hx' : net.Valid := hx
  set N := (if net.version = 4 then formatIPv4 net.addr else formatIPv6 net.addr) ++
      (if net.prefixlen ≠ net.maxPrefixlen
       then '/' :: natToStr net.prefixlen else []) with hN
  have htame : ∀ c ∈ N, isWS c = false ∧ c ≠ '!' := netPart_tame net
  have hNne : N ≠ [] := netPart_ne_nil net
  obtain ⟨c0, t0, hc0⟩ := List.exists_cons_of_ne_nil hNne
  have hc0tame : isWS c0 = false ∧ c0 ≠ '!' := htame c0 (by rw [hc0]; simp)
  have hhead : ∀ c, N.head? = some c → isWS c = false := fun c hc =>
    (htame c (List.mem_of_mem_head? hc)).1
  have hlast : ∀ c, N.getLast? = some c → isWS c = false := fun c hc =>
    (htame c (List.mem_of_mem_getLast? hc)).1
  have hdropBang : N.dropWhile (fun c => c = '!') = N :=
    dropWhile_eq_self_of_head _ _ (fun c hch => by
      have h2 := (htame c (List.mem_of_mem_head? hch)).2
      simp [h2])
  have hdropWS : N.dropWhile isWS = N := dropWhile_eq_self_of_head _ _ hhead
  have hnet : ip_network_text N = some net := by
    rw [hN]
    have hrt := ip_network_text_roundtrip net hx'
    simpa [IpNetwork.maxPrefixlen] using hrt
  have hbangN : startsWithBang N = false := by
    rw [hc0, startsWithBang]
    simp [hc0tame.2]
  have hts : PFTableAddr.to_string ⟨net, neg⟩ =
      (if neg then ['!', ' '] else []) ++ N := by
    rw [to_string_eq]
  rw [hts]
  cases neg
  · rw [if_neg (by simp), List.nil_append]
    rw [PFTableAddr.from_string, pyStrip_eq_self N hhead hlast, hdropBang, hdropWS]
    simp only [hnet, hbangN]
  · rw [if_pos rfl]
    have hstrip : pyStrip (['!', ' '] ++ N) = ['!', ' '] ++ N := by
      apply pyStrip_eq_self
      · intro c hc
        simp only [List.cons_append, List.head?_cons] at hc
        cases hc
        decide
      · intro c hc
        rw [List.getLast?_append_of_ne_nil _ hNne] at hc
        exact hlast c hc
    have hdb : (['!', ' '] ++ N).dropWhile (fun c => c = '!') = ' ' :: N := by
      rw [show (['!', ' '] ++ N : List Char) = '!' :: ' ' :: N from by simp]
      rw [List.dropWhile_cons, if_pos (by simp), List.dropWhile_cons,
        if_neg (by simp)]
    have hdw : (' ' :: N).dropWhile isWS = N := by
      rw [List.dropWhile_cons, if_pos (by decide)]
      exact hdropWS
    rw [PFTableAddr.from_string, hstrip, hdb, hdw]
    have hbang : startsWithBang (['!', ' '] ++ N) = true := by
      rw [show (['!', ' '] ++ N : List Char) = '!' :: ' ' :: N from by simp]
      rfl
    simp only [hnet, hbang]

/-! ## Parse results are valid networks -/

theorem isDigit_iff (c : Char) : isDigit c = true ↔ 48 ≤ c.toNat ∧ c.toNat ≤ 57 := by
  rw [isDigit, Bool.and_eq_true, decide_eq_true_eq, decide_eq_true_eq]
  exact Iff.rfl

theorem hexVal_lt (c : Char) (h : isHexDigit c = true) : hexVal c < 16 := by
  have hd_iff := isDigit_iff c
  have hranges : (48 ≤ c.toNat ∧ c.toNat ≤ 57) ∨ (97 ≤ c.toNat ∧ c.toNat ≤ 102) ∨
      (65 ≤ c.toNat ∧ c.toNat ≤ 70) := by
    rw [isHexDigit, Bool.or_eq_true, Bool.or_eq_true] at h
    rcases h with (hd | hl) | hu
    · exact Or.inl (hd_iff.mp hd)
    · rw [Bool.and_eq_true, decide_eq_true_eq, decide_eq_true_eq] at hl
      exact Or.inr (Or.inl hl)
    · rw [Bool.and_eq_true, decide_eq_true_eq, decide_eq_true_eq] at hu
      exact Or.inr (Or.inr hu)
  rw [hexVal]
  split
  · next hdig =>
    have := hd_iff.mp hdig
    omega
  · next hdig =>
    have hnd : ¬(48 ≤ c.toNat ∧ c.toNat ≤ 57) := fun hc => hdig (hd_iff.mpr hc)
    split
    · next hlow =>
      rw [Bool.and_eq_true, decide_eq_true_eq, decide_eq_true_eq] at hlow
      have hlow' : 97 ≤ c.toNat ∧ c.toNat ≤ 102 := hlow
      omega
    · next hlow =>
      have hnl : ¬(97 ≤ c.toNat ∧ c.toNat ≤ 102) := by
        intro hc
        apply hlow
        rw [Bool.and_eq_true, decide_eq_true_eq, decide_eq_true_eq]
        exact hc
      omega

theorem hexValue_lt (s : List Char) (hall : s.all isHexDigit = true) :
    hexValue s < 16 ^ s.length := by
  induction s using List.reverseRecOn with
  | nil => simp [hexValue]
  | append_singleton xs c ih =>
    rw [hexValue_append_one]
    rw [List.all_append] at hall
    simp only [Bool.and_eq_true, List.all_cons, List.all_nil, Bool.and_true] at hall
    have hc : hexVal c < 16 := hexVal_lt c hall.2
    have hxs := ih hall.1
    simp only [List.length_append, List.length_cons, List.length_nil]
    have h1 : hexValue xs * 16 + hexVal c < (hexValue xs + 1) * 16 := by omega
    have h2 : (hexValue xs + 1) * 16 ≤ 16 ^ xs.length * 16 :=
      Nat.mul_le_mul_right 16 hxs
    calc hexValue xs * 16 + hexVal c < (hexValue xs + 1) * 16 := h1
      _ ≤ 16 ^ xs.length * 16 := h2
      _ = 16 ^ (xs.length + 1) := by ring

theorem unpackHextets_lt (gs : List Nat) (h : ∀ g ∈ gs, g < 65536) :
    unpackHextets gs < 65536 ^ gs.length := by
  induction gs using List.reverseRecOn with
  | nil => simp [unpackHextets]
  | append_singleton xs g ih =>
    rw [unpackHextets_append_one]
    have hg : g < 65536 := h g (by simp)
    have hxs := ih (fun y hy => h y (by simp [hy]))
    simp only [List.length_append, List.length_cons, List.length_nil]
    have h1 : unpackHextets xs * 65536 + g < (unpackHextets xs + 1) * 65536 := by omega
    have h2 : (unpackHextets xs + 1) * 65536 ≤ 65536 ^ xs.length * 65536 :=
      Nat.mul_le_mul_right 65536 hxs
    calc unpackHextets xs * 65536 + g < (unpackHextets xs + 1) * 65536 := h1
      _ ≤ 65536 ^ xs.length * 65536 := h2
      _ = 65536 ^ (xs.length + 1) := by ring

theorem parseHextet_lt (s : List Char) (v : Nat) (h : parseHextet s = some v) : v < 65536 := by
  rw [parseHextet] at h
  split at h
  · exact absurd h (by simp)
  · split at h
    · exact absurd h (by simp)
    · split at h
      · exact absurd h (by simp)
      · next h1 h2 h3 =>
        cases h
        have hall : s.all isHexDigit = true := not_not.mp h2
        have := hexValue_lt s hall
        have hlen : s.length ≤ 4 := by omega
        calc hexValue s < 16 ^ s.length := this
          _ ≤ 16 ^ 4 := Nat.pow_le_pow_right (by norm_num) hlen
          _ = 65536 := by norm_num

theorem mapM_some_mem {α β : Type} (f : α → Option β) (ps : List α) (vs : List β)
    (h : ps.mapM f = some vs) : ∀ v ∈ vs, ∃ p ∈ ps, f p = some v := by
  induction ps generalizing vs with
  | nil =>
    simp only [List.mapM_nil, Option.pure_def, Option.some.injEq] at h
    subst h
    simp
  | cons p rest ih =>
    rw [List.mapM_cons] at h
    cases hf : f p with
    | none => rw [hf] at h; simp at h
    | some y =>
      rw [hf] at h
      cases hrest : rest.mapM f with
      | none => rw [hrest] at h; simp at h
      | some ys =>
        rw [hrest] at h
        simp at h
        subst h
        intro v hv
        rcases List.mem_cons.mp hv with rfl | hv
        · exact ⟨p, by simp, hf⟩
        · obtain ⟨q, hq, hfq⟩ := ih ys hrest v hv
          exact ⟨q, by simp [hq], hfq⟩

theorem mapM_some_length {α β : Type} (f : α → Option β) (ps : List α) (vs : List β)
    (h : ps.mapM f = some vs) : vs.length = ps.length := by
  induction ps generalizing vs with
  | nil =>
    simp only [List.mapM_nil, Option.pure_def, Option.some.injEq] at h
    subst h
    rfl
  | cons p rest ih =>
    rw [List.mapM_cons] at h
    cases hf : f p with
    | none => rw [hf] at h; simp at h
    | some y =>
      rw [hf] at h
      cases hrest : rest.mapM f with
      | none => rw [hrest] at h; simp at h
      | some ys =>
        rw [hrest] at h
        simp at h
        subst h
        simp [ih ys hrest]

theorem unpackBE_lt (bs : List Nat) (h : ∀ b ∈ bs, b < 256) :
    unpackBE bs < 256 ^ bs.length := by
  induction bs using List.reverseRecOn with
  | nil => simp [unpackBE]
  | append_singleton xs b ih =>
    rw [unpackBE_append_one]
    have hb : b < 256 := h b (by simp)
    have hxs := ih (fun y hy => h y (by simp [hy]))
    simp only [List.length_append, List.length_cons, List.length_nil]
    have h1 : unpackBE xs * 256 + b < (unpackBE xs + 1) * 256 := by omega
    have h2 : (unpackBE xs + 1) * 256 ≤ 256 ^ xs.length * 256 :=
      Nat.mul_le_mul_right 256 hxs
    calc unpackBE xs * 256 + b < (unpackBE xs + 1) * 256 := h1
      _ ≤ 256 ^ xs.length * 256 := h2
      _ = 256 ^ (xs.length + 1) := by ring

theorem parseOctet_le (s : List Char) (v : Nat) (h : parseOctet s = some v) : v ≤ 255 := by
  rw [parseOctet] at h
  split at h
  · simp at h
  · split at h
    · simp at h
    · split at h
      · simp at h
      · split at h
        · simp at h
        · split at h
          · next hle => cases h; exact hle
          · simp at h

theorem parseIPv4_lt (s : List Char) (v : Nat) (h : parseIPv4 s = some v) : v < 2 ^ 32 := by
  rw [parseIPv4] at h
  split at h
  · next p1 p2 p3 p4 heq =>
    rcases h1 : parseOctet p1 with _ | a <;> rw [h1] at h
    · simp at h
    rcases h2 : parseOctet p2 with _ | b <;> rw [h2] at h
    · simp at h
    rcases h3 : parseOctet p3 with _ | c <;> rw [h3] at h
    · simp at h
    rcases h4 : parseOctet p4 with _ | d <;> rw [h4] at h
    · simp at h
    simp only [Option.some.injEq] at h
    subst h
    have hbound : ∀ z ∈ [a, b, c, d], z < 256 := by
      intro z hz
      have ha := parseOctet_le p1 a h1
      have hb := parseOctet_le p2 b h2
      have hc := parseOctet_le p3 c h3
      have hd := parseOctet_le p4 d h4
      rcases List.mem_cons.mp hz with rfl | hz
      · omega
      rcases List.mem_cons.mp hz with rfl | hz
      · omega
      rcases List.mem_cons.mp hz with rfl | hz
      · omega
      rcases List.mem_cons.mp hz with rfl | hz
      · omega
      · simp at hz
    calc unpackBE [a, b, c, d] < 256 ^ ([a, b, c, d].length) := unpackBE_lt _ hbound
      _ = 2 ^ 32 := by norm_num
  · simp at h

theorem parseIPv6parts_lt (parts : List (List Char)) (v : Nat)
    (h : parseIPv6parts parts = some v) : v < 2 ^ 128 := by
  have hofgroups : ∀ (gs : List Nat), gs.length ≤ 8 → (∀ g ∈ gs, g < 65536) →
      unpackHextets gs < 2 ^ 128 := by
    intro gs hlen hmem
    calc unpackHextets gs < 65536 ^ gs.length := unpackHextets_lt gs hmem
      _ ≤ 65536 ^ 8 := Nat.pow_le_pow_right (by norm_num) hlen
      _ = 2 ^ 128 := by norm_num
  rw [parseIPv6parts.eq_def] at h
  split at h
  · simp at h
  · next p0 rest =>
    split at h
    · simp at h
    · next plast heqlast =>
      split at h
      · simp at h
      · next hlen9 =>
        split at h
        · -- no `::`
          split at h
          · simp at h
          · next hcond =>
            cases hm : (p0 :: rest).mapM parseHextet with
            | none => rw [hm] at h; simp at h
            | some vs =>
              rw [hm] at h
              simp at h
              subst h
              push_neg at hcond
              apply hofgroups vs
              · rw [mapM_some_length _ _ _ hm]
                simp only [List.length_cons]
                omega
              · intro g hg
                obtain ⟨p, _, hp⟩ := mapM_some_mem _ _ _ hm g hg
                exact parseHextet_lt p g hp
        · -- one `::`
          next hi lo heqmid =>
          split at h
          · next hps lps heq1 heq2 =>
            split at h
            · simp at h
            · next hcnt =>
              cases hm1 : hps.mapM parseHextet with
              | none => rw [hm1] at h; simp at h
              | some hvs =>
                cases hm2 : lps.mapM parseHextet with
                | none => rw [hm1, hm2] at h; simp at h
                | some lvs =>
                  rw [hm1, hm2] at h
                  simp only [Option.some.injEq] at h
                  subst h
                  have hl1 := mapM_some_length _ _ _ hm1
                  have hl2 := mapM_some_length _ _ _ hm2
                  apply hofgroups
                  · simp only [List.length_append, List.length_replicate]
                    omega
                  · intro g hg
                    rcases List.mem_append.mp hg with hg | hg
                    · rcases List.mem_append.mp hg with hg | hg
                      · obtain ⟨p, _, hp⟩ := mapM_some_mem _ _ _ hm1 g hg
                        exact parseHextet_lt p g hp
                      · have := List.eq_of_mem_replicate hg
                        omega
                    · obtain ⟨p, _, hp⟩ := mapM_some_mem _ _ _ hm2 g hg
                      exact parseHextet_lt p g hp
          · simp at h
        · simp at h

theorem parseIPv6_lt (s : List Char) (v : Nat) (h : parseIPv6 s = some v) : v < 2 ^ 128 :=
  parseIPv6parts_lt _ v h

theorem parsePrefixLen_le (w : Nat) (s : List Char) (v : Nat)
    (h : parsePrefixLen w s = some v) : v ≤ w := by
  rw [parsePrefixLen] at h
  split at h
  · simp at h
  · split at h
    · simp at h
    · split at h
      · next hle => cases h; exact hle
      · simp at h

theorem maskAddr_mod (width addr p : Nat) :
    maskAddr width addr p % 2 ^ (width - p) = 0 := by
  rw [maskAddr]
  exact Nat.mul_mod_left _ _

theorem maskAddr_le (width addr p : Nat) : maskAddr width addr p ≤ addr := by
  rw [maskAddr]
  exact Nat.div_mul_le_self addr _

theorem parseNet_valid (version : Nat) (parseIP : List Char → Option Nat) (s : List Char)
    (n : IpNetwork) (hver : version = 4 ∨ version = 6)
    (hbound : ∀ t v, parseIP t = some v → v < 2 ^ addrWidth version)
    (h : parseNet version parseIP s = some n) : n.Valid := by
  rw [parseNet.eq_def] at h
  split at h
  · next a heq =>
    cases hip : parseIP a with
    | none => rw [hip] at h; simp at h
    | some ip =>
      rw [hip] at h
      simp only [Option.some.injEq] at h
      subst h
      refine ⟨hver, le_refl _, ?_, maskAddr_mod _ _ _⟩
      calc maskAddr (addrWidth version) ip (addrWidth version) ≤ ip := maskAddr_le _ _ _
        _ < 2 ^ addrWidth version := hbound a ip hip
  · next a p heq =>
    cases hip : parseIP a with
    | none => rw [hip] at h; simp at h
    | some ip =>
      cases hpl : parsePrefixLen (addrWidth version) p with
      | none => rw [hip, hpl] at h; simp at h
      | some pl =>
        rw [hip, hpl] at h
        simp only [Option.some.injEq] at h
        subst h
        refine ⟨hver, parsePrefixLen_le _ _ _ hpl, ?_, maskAddr_mod _ _ _⟩
        calc maskAddr (addrWidth version) ip pl ≤ ip := maskAddr_le _ _ _
          _ < 2 ^ addrWidth version := hbound a ip hip
  · simp at h

theorem ip_network_text_valid (s : List Char) (n : IpNetwork)
    (h : ip_network_text s = some n) : n.Valid := by
  rw [ip_network_text] at h
  cases h4 : parseNet 4 parseIPv4 s with
  | some m =>
    rw [h4] at h
    simp only [Option.some.injEq] at h
    subst h
    exact parseNet_valid 4 parseIPv4 s _ (Or.inl rfl)
      (fun t v hv => parseIPv4_lt t v hv) h4
  | none =>
    rw [h4] at h
    exact parseNet_valid 6 parseIPv6 s n (Or.inr rfl)
      (fun t v hv => parseIPv6_lt t v hv) h

theorem from_string_valid (s : List Char) (x : PFTableAddr)
    (h : PFTableAddr.from_string s = .ok x) : x.Valid := by
  rw [PFTableAddr.from_string] at h
  cases hnet : ip_network_text (((pyStrip s).dropWhile (fun c => c = '!')).dropWhile isWS) with
  | none => rw [hnet] at h; simp at h
  | some net =>
    rw [hnet] at h
    simp only [Except.ok.injEq] at h
    subst h
    exact ip_network_text_valid _ net hnet

/-- C8: any successfully parsed textual address, once formatted, parses
back to the same value; and the formatted text is the network address
with `/prefix` appended exactly when the prefix is not the family's full
width, and `"! "` prepended exactly when the negate flag is set. -/
theorem text_roundtrip :
    (∀ (s : List Char) (x : PFTableAddr), PFTableAddr.from_string s = .ok x →
      PFTableAddr.from_string (PFTableAddr.to_string x) = .ok x) ∧
    (∀ x : PFTableAddr,
      PFTableAddr.to_string x =
        (if x.negate then ['!', ' '] else []) ++
          ((if x.address.version = 4 then formatIPv4 x.address.addr
            else formatIPv6 x.address.addr) ++
           (if x.address.prefixlen ≠ x.address.maxPrefixlen
            then '/' :: natToStr x.address.prefixlen else []))) :=
  ⟨fun s x h => from_string_to_string x (from_string_valid s x h), to_string_eq⟩

/-- C8 witness: the round trip evaluated at the concrete text
`! 2001:db8::/32`. -/
theorem text_roundtrip_witness :
    PFTableAddr.from_string ("! 2001:db8::/32".toList) =
        .ok ⟨⟨6, 0x20010db8 * 2 ^ 96, 32⟩, true⟩ ∧
      PFTableAddr.from_string
          (PFTableAddr.to_string ⟨⟨6, 0x20010db8 * 2 ^ 96, 32⟩, true⟩) =
        .ok ⟨⟨6, 0x20010db8 * 2 ^ 96, 32⟩, true⟩ :=
  ⟨by decide, text_roundtrip.1 ("! 2001:db8::/32".toList) _ (by decide)⟩

/-- Rendering is injective on valid addresses (via the round trip). -/
theorem to_string_injOn (x y : PFTableAddr) (hx : x.Valid) (hy : y.Valid)
    (h : PFTableAddr.to_string x = PFTableAddr.to_string y) : x = y := by
  have h2 : (Except.ok y : Except PyErr PFTableAddr) = Except.ok x := by
    rw [← from_string_to_string y hy, ← h, from_string_to_string x hx]
  injection h2 with h3
  exact h3.symm

/-- An injective integer key on table addresses, fixing one concrete
iteration order for the set (Python's set iteration order is arbitrary;
the spec leaves the order implementation-defined). -/
def PFTableAddr.key (x : PFTableAddr) : Nat :=
  Nat.pair x.address.version (Nat.pair x.address.addr
    (Nat.pair x.address.prefixlen (if x.negate then 1 else 0)))

theorem key_injective : Function.Injective PFTableAddr.key := by
  intro a b h
  rw [PFTableAddr.key, PFTableAddr.key] at h
  obtain ⟨⟨v1, a1, p1⟩, g1⟩ := a
  obtain ⟨⟨v2, a2, p2⟩, g2⟩ := b
  simp only [Nat.pair_eq_pair] at h
  obtain ⟨h1, h2, h3, h4⟩ := h
  cases g1 <;> cases g2 <;> simp_all

/-- The iteration order used to model Python's set traversal. -/
def keyLe (a b : PFTableAddr) : Prop := a.key ≤ b.key

instance : DecidableRel keyLe := fun x y => Nat.decLe x.key y.key

instance : IsTrans PFTableAddr keyLe := ⟨fun _ _ _ => Nat.le_trans⟩

instance : IsAntisymm PFTableAddr keyLe :=
  ⟨fun _ _ h1 h2 => key_injective (Nat.le_antisymm h1 h2)⟩

instance : IsTotal PFTableAddr keyLe := ⟨fun x y => Nat.le_total x.key y.key⟩

/-- Method `PfTable.list`: the textual form of every member, in one fixed
traversal order of the set. -/
def PfTable.list (s : Finset PFTableAddr) : List (List Char) :=
  (s.sort keyLe).map PFTableAddr.to_string

theorem applyOps_valid (init : Finset PFTableAddr) (ops : List TableOp)
    (hinit : ∀ x ∈ init, x.Valid)
    (hops : ∀ op ∈ ops, ∀ x, op = TableOp.add x → x.Valid) :
    ∀ x ∈ applyOps init ops, x.Valid := by
  induction ops generalizing init with
  | nil => exact hinit
  | cons op rest ih =>
    have hstep : ∀ x ∈ applyOp init op, x.Valid := by
      cases op with
      | add y =>
        intro x hx
        rw [applyOp, addAddr_state] at hx
        rcases Finset.mem_insert.mp hx with rfl | hx
        · exact hops _ (by simp) x rfl
        · exact hinit x hx
      | remove y =>
        intro x hx
        rw [applyOp, removeAddr_state] at hx
        exact hinit x (Finset.mem_of_mem_erase hx)
      | clear =>
        intro x hx
        rw [applyOp, clear_state] at hx
        exact absurd hx (Finset.not_mem_empty x)
    exact ih (applyOp init op) hstep (fun o ho x hox => hops o (by simp [ho]) x hox)

/-- C3: after any sequence of successful mutations from a valid initial
set, membership is exactly the spec's added-and-not-since-removed-or-
cleared characterization, and `list()` returns exactly the textual forms
of those members, each exactly once. -/
theorem set_invariant (init : Finset PFTableAddr) (ops : List TableOp)
    (hinit : ∀ x ∈ init, x.Valid)
    (hops : ∀ op ∈ ops, ∀ x, op = TableOp.add x → x.Valid) :
    (∀ x, x ∈ applyOps init ops ↔ specMember init ops x = true) ∧
    (PfTable.list (applyOps init ops)).Nodup ∧
    (∀ str, str ∈ PfTable.list (applyOps init ops) ↔
      ∃ x, specMember init ops x = true ∧ str = PFTableAddr.to_string x) := by
  have hval := applyOps_valid init ops hinit hops
  refine ⟨fun x => mem_applyOps init ops x, ?_, ?_⟩
  · rw [PfTable.list]
    exact (Finset.sort_nodup keyLe _).map_on
      (fun x hx y hy hxy =>
        to_string_injOn x y (hval x ((Finset.mem_sort keyLe).mp hx))
          (hval y ((Finset.mem_sort keyLe).mp hy)) hxy)
  · intro str
    rw [PfTable.list, List.mem_map]
    constructor
    · rintro ⟨x, hx, rfl⟩
      exact ⟨x, (mem_applyOps init ops x).mp ((Finset.mem_sort keyLe).mp hx), rfl⟩
    · rintro ⟨x, hx, rfl⟩
      exact ⟨x, (Finset.mem_sort keyLe).mpr ((mem_applyOps init ops x).mpr hx), rfl⟩

/-- C3 witness: the invariant instantiated on the concrete run
`add 192.0.2.1; remove 192.0.2.1` from the empty table. -/
theorem set_invariant_witness :
    (∀ x, x ∈ applyOps ∅ [TableOp.add addr1, TableOp.remove addr1] ↔
      specMember ∅ [TableOp.add addr1, TableOp.remove addr1] x = true) ∧
    (PfTable.list (applyOps ∅ [TableOp.add addr1, TableOp.remove addr1])).Nodup ∧
    (∀ str, str ∈ PfTable.list (applyOps ∅ [TableOp.add addr1, TableOp.remove addr1]) ↔
      ∃ x, specMember ∅ [TableOp.add addr1, TableOp.remove addr1] x = true ∧
        str = PFTableAddr.to_string x) :=
  set_invariant ∅ [TableOp.add addr1, TableOp.remove addr1]
    (fun x hx => absurd hx (Finset.not_mem_empty x))
    (by
      intro op hop x hx
      rcases List.mem_cons.mp hop with rfl | hop
      · injection hx with h
        subst h
        decide
      rcases List.mem_cons.mp hop with rfl | hop
      · simp at hx
      · simp at hop)

/-! ## The line command protocol (`process_command`, `CommandHandler`) -/

/-- Method `PfTable.add` on text: parse first (a `ValueError` escapes with no set
change and no kernel call), then insert-and-replace under the lock. -/
def PfTable.add (repl : ReplCall) (s : Finset PFTableAddr) (text : List Char) : MutOut :=
  match PFTableAddr.from_string text with
  | .error e => ⟨s, 0, .error e⟩
  | .ok x => PfTable.addAddr repl s x

/-- Method `PfTable.remove` on text: parse first, then erase-and-replace. -/
def PfTable.remove (repl : ReplCall) (s : Finset PFTableAddr) (text : List Char) : MutOut :=
  match PFTableAddr.from_string text with
  | .error e => ⟨s, 0, .error e⟩
  | .ok x => PfTable.removeAddr repl s x

/-- Function `process_command`: dispatch on the command's first character or exact
text; the `reply` callback is modelled by the returned string.  The
result pairs the table set afterwards with either the one reply or the
exception that escaped: only `ValueError` is caught by the handler, an
empty command raises `IndexError` at `command[0]` (the caller never
passes one), and kernel `OSError`s propagate. -/
def process_command (repl : ReplCall) (s : Finset PFTableAddr) (command : List Char) :
    Finset PFTableAddr × Except PyErr (List Char) :=
  match command with
  | [] => (s, .error .indexError)
  | c :: rest =>
    if c = '+' then
      if rest ≠ [] then
        match (PfTable.add repl s rest).result with
        | .ok _ => ((PfTable.add repl s rest).state, .ok ("OK\n".toList))
        | .error .valueError =>
          ((PfTable.add repl s rest).state, .ok ("ERROR: INVALID ADDRESS\n".toList))
        | .error e => ((PfTable.add repl s rest).state, .error e)
      else (s, .ok ("ERROR: MISSING ADDRESS\n".toList))
    else if c = '-' then
      if rest ≠ [] then
        match (PfTable.remove repl s rest).result with
        | .ok _ => ((PfTable.remove repl s rest).state, .ok ("OK\n".toList))
        | .error .valueError =>
          ((PfTable.remove repl s rest).state, .ok ("ERROR: INVALID ADDRESS\n".toList))
        | .error e => ((PfTable.remove repl s rest).state, .error e)
      else (s, .ok ("ERROR: MISSING ADDRESS\n".toList))
    else if command = ['?'] then
      (s, .ok (joinSep '\n' (PfTable.list s) ++ ['\n']))
    else if command = ['.'] then
      match (PfTable.clear repl s).result with
      | .ok _ => ((PfTable.clear repl s).state, .ok ("OK\n".toList))
      | .error .valueError =>
        ((PfTable.clear repl s).state, .ok ("ERROR: INVALID ADDRESS\n".toList))
      | .error e => ((PfTable.clear repl s).state, .error e)
    else (s, .ok ("ERROR: UNKNOWN COMMAND\n".toList))

/-- Method `CommandHandler.handle`: strip each incoming line, silently skip the
ones that strip to nothing, process the rest in order collecting the
replies; an uncaught exception ends the loop (the connection's thread
dies), dropping the remaining lines. -/
def handleLines (repl : ReplCall) (s : Finset PFTableAddr) :
    List (List Char) → List (List Char) × Finset PFTableAddr
  | [] => ([], s)
  | line :: rest =>
    if pyStrip line = [] then handleLines repl s rest
    else
      match process_command repl s (pyStrip line) with
      | (s', .ok r) =>
        let (rs, s'') := handleLines repl s' rest
        (r :: rs, s'')
      | (s', .error _) => ([], s')

theorem addAddr_result_ok (repl : ReplCall) (hrepl : ∀ t, ∃ r, repl t = .ok r)
    (s : Finset PFTableAddr) (x : PFTableAddr) :
    ∃ n, (PfTable.addAddr repl s x).result = .ok n := by
  rw [PfTable.addAddr]
  split
  · exact ⟨0, rfl⟩
  · obtain ⟨⟨d, n, c⟩, hr⟩ := hrepl (insert x s)
    exact ⟨n, by rw [hr]⟩

theorem removeAddr_result_ok (repl : ReplCall) (hrepl : ∀ t, ∃ r, repl t = .ok r)
    (s : Finset PFTableAddr) (x : PFTableAddr) :
    ∃ n, (PfTable.removeAddr repl s x).result = .ok n := by
  rw [PfTable.removeAddr]
  split
  · obtain ⟨⟨d, n, c⟩, hr⟩ := hrepl (s.erase x)
    exact ⟨d, by rw [hr]⟩
  · exact ⟨0, rfl⟩

theorem clear_result_ok (repl : ReplCall) (hrepl : ∀ t, ∃ r, repl t = .ok r)
    (s : Finset PFTableAddr) :
    ∃ n, (PfTable.clear repl s).result = .ok n := by
  rw [PfTable.clear]
  obtain ⟨⟨d, n, c⟩, hr⟩ := hrepl ∅
  exact ⟨d, by rw [hr]⟩

/-- C4: the reply table of the command protocol, for a kernel whose
replace calls succeed: parsed `+`/`-` commands reply `OK`, a bare `+` or
`-` replies MISSING ADDRESS, unparseable operands reply INVALID ADDRESS,
`?` replies the newline-joined member list (a bare newline when the table
is empty), `.` empties the table and replies `OK`, anything else replies
UNKNOWN COMMAND, and every reply ends with a newline. -/
theorem process_command_spec (repl : ReplCall) (s : Finset PFTableAddr)
    (hrepl : ∀ t, ∃ r, repl t = .ok r) :
    (∀ rest x, rest ≠ [] → PFTableAddr.from_string rest = .ok x →
      (process_command repl s ('+' :: rest)).2 = .ok ("OK\n".toList) ∧
      (process_command repl s ('-' :: rest)).2 = .ok ("OK\n".toList)) ∧
    (process_command repl s ['+'] = (s, .ok ("ERROR: MISSING ADDRESS\n".toList)) ∧
      process_command repl s ['-'] = (s, .ok ("ERROR: MISSING ADDRESS\n".toList))) ∧
    (∀ rest, rest ≠ [] → PFTableAddr.from_string rest = .error .valueError →
      process_command repl s ('+' :: rest) = (s, .ok ("ERROR: INVALID ADDRESS\n".toList)) ∧
      process_command repl s ('-' :: rest) = (s, .ok ("ERROR: INVALID ADDRESS\n".toList))) ∧
    (process_command repl s ['?'] = (s, .ok (joinSep '\n' (PfTable.list s) ++ ['\n'])) ∧
      (s = ∅ → process_command repl s ['?'] = (s, .ok ['\n']))) ∧
    ((process_command repl s ['.']).1 = ∅ ∧
      (process_command repl s ['.']).2 = .ok ("OK\n".toList)) ∧
    (∀ c rest, c ≠ '+' → c ≠ '-' → c :: rest ≠ ['?'] → c :: rest ≠ ['.'] →
      process_command repl s (c :: rest) = (s, .ok ("ERROR: UNKNOWN COMMAND\n".toList))) ∧
    (∀ command s' r, process_command repl s command = (s', .ok r) →
      r.getLast? = some '\n') := by
  have hclear := clear_result_ok repl hrepl s
  refine ⟨?_, ?_, ?_, ?_, ?_, ?_, ?_⟩
  · intro rest x hne hx
    constructor
    · obtain ⟨n, hn⟩ := addAddr_result_ok repl hrepl s x
      simp [process_command, PfTable.add, hx, hn, hne]
    · obtain ⟨n, hn⟩ := removeAddr_result_ok repl hrepl s x
      simp [process_command, PfTable.remove, hx, hn, hne]
  · constructor
    · simp [process_command]
    · simp [process_command]
  · intro rest hne hx
    constructor
    · simp [process_command, PfTable.add, hx, hne]
    · simp [process_command, PfTable.remove, hx, hne]
  · constructor
    · simp [process_command]
    · intro hs
      subst hs
      simp [process_command]
      rw [show PfTable.list (∅ : Finset PFTableAddr) = [] by
        rw [PfTable.list, Finset.sort_empty, List.map_nil]]
      rfl
  · obtain ⟨n, hn⟩ := hclear
    constructor
    · simp [process_command, hn, clear_state]
    · simp [process_command, hn]
  · intro c rest hplus hminus hq hdot
    simp only [process_command]
    rw [if_neg hplus, if_neg hminus, if_neg hq, if_neg hdot]
  · intro command s' r h
    rw [process_command.eq_def] at h
    split at h
    · simp at h
    · next c rest =>
      split at h
      · split at h
        · split at h <;>
            first
            | (simp only [Prod.mk.injEq, Except.ok.injEq] at h
               rw [← h.2]
               decide)
            | simp at h
        · simp only [Prod.mk.injEq, Except.ok.injEq] at h
          rw [← h.2]
          decide
      · split at h
        · split at h
          · split at h <;>
              first
              | (simp only [Prod.mk.injEq, Except.ok.injEq] at h
                 rw [← h.2]
                 decide)
              | simp at h
          · simp only [Prod.mk.injEq, Except.ok.injEq] at h
            rw [← h.2]
            decide
        · split at h
          · simp only [Prod.mk.injEq, Except.ok.injEq] at h
            rw [← h.2, List.getLast?_concat]
          · split at h
            · split at h <;>
                first
                | (simp only [Prod.mk.injEq, Except.ok.injEq] at h
                   rw [← h.2]
                   decide)
                | simp at h
            · simp only [Prod.mk.injEq, Except.ok.injEq] at h
              rw [← h.2]
              decide

/-- C4 witness: the protocol evaluated on the concrete commands `+`
(missing address), `*` (unknown command) and `.` against the empty table
with a succeeding kernel. -/
theorem process_command_spec_witness :
    process_command okRepl ∅ ['+'] = (∅, .ok ("ERROR: MISSING ADDRESS\n".toList)) ∧
      process_command okRepl ∅ ['*'] = (∅, .ok ("ERROR: UNKNOWN COMMAND\n".toList)) ∧
      (process_command okRepl ∅ ['.']).2 = .ok ("OK\n".toList) :=
  ⟨(process_command_spec okRepl ∅ (fun _ => ⟨(0, 0, 0), rfl⟩)).2.1.1,
    (process_command_spec okRepl ∅ (fun _ => ⟨(0, 0, 0), rfl⟩)).2.2.2.2.2.1 '*' []
      (by decide) (by decide) (by decide) (by decide),
    (process_command_spec okRepl ∅ (fun _ => ⟨(0, 0, 0), rfl⟩)).2.2.2.2.1.2⟩

theorem dropWhile_eq_nil_of_all (p : Char → Bool) (s : List Char)
    (h : ∀ c ∈ s, p c = true) : s.dropWhile p = [] := by
  induction s with
  | nil => rfl
  | cons c t ih =>
    rw [List.dropWhile_cons, if_pos (by simp [h c (by simp)])]
    exact ih (fun d hd => h d (by simp [hd]))

theorem pyStrip_all_ws (line : List Char) (h : line.all isWS = true) :
    pyStrip line = [] := by
  rw [pyStrip, dropWhile_eq_nil_of_all _ _ (fun c hc => List.all_eq_true.mp h c hc)]
  rfl

/-- C10: a line that is empty or whitespace-only produces no reply at
all — handling it is exactly handling the remaining lines. -/
theorem blank_line_no_reply (repl : ReplCall) (s : Finset PFTableAddr)
    (line : List Char) (rest : List (List Char)) (h : line.all isWS = true) :
    handleLines repl s (line :: rest) = handleLines repl s rest := by
  rw [handleLines, if_pos (pyStrip_all_ws line h)]

/-- C10 witness: a connection consisting of the single line `" \t"` sends
no reply and leaves the table untouched. -/
theorem blank_line_no_reply_witness :
    handleLines okRepl ∅ [[' ', '\t']] = ([], ∅) ∧
      handleLines okRepl ∅ [[' ', '\t']] = handleLines okRepl ∅ [] :=
  ⟨by rw [blank_line_no_reply okRepl ∅ [' ', '\t'] [] (by decide)]; rfl,
    blank_line_no_reply okRepl ∅ [' ', '\t'] [] (by decide)⟩

end Pftabled
